import Mathlib

/-!
# reflect2go: rendering of reflected Go types into source text

A shallow embedding of `type.go`, `gofile.go` and `template.go` of
`github.com/AdamSLevy/reflect2go`, and the properties of the type renderer
and of the file object that are checked against it.

Conventions of the embedding:

* a `bytes.Buffer` is the `String` written so far, `WriteString` appends;
* a method with a pointer receiver takes the `GoFile` and returns the
  updated `GoFile`;
* a Go `error` is the `Option` of its message; a call that may panic gives an
  `Outcome`, or an `Except` whose error is the value of the panic;
* a `reflect.Type` is a finite tree, given by the introspection source; types
  that refer to themselves are nodes of a `TypeGraph`, on which `renderOn` is
  `render` with a bound on the depth of the calls.
-/

namespace Reflect2go

/-! ## The introspection source: `reflect.Type` -/

/-- The kinds of `reflect.Kind`, in the order of the Go declaration. -/
inductive Kind where
  | Invalid | Bool | Int | Int8 | Int16 | Int32 | Int64
  | Uint | Uint8 | Uint16 | Uint32 | Uint64 | Uintptr
  | Float32 | Float64 | Complex64 | Complex128
  | Array | Chan | Func | Interface | Map | Ptr | Slice
  | String | Struct | UnsafePointer
  deriving DecidableEq, Repr

/-- The kinds of types that have no element, key or field the renderer could
descend into: `reflect` never reports `Invalid` for a type, and the composite
kinds are constructors of their own in `ReflectType`. -/
inductive OpaqueKind where
  | Bool | Int | Int8 | Int16 | Int32 | Int64
  | Uint | Uint8 | Uint16 | Uint32 | Uint64 | Uintptr
  | Float32 | Float64 | Complex64 | Complex128
  | Func | Interface | String | UnsafePointer
  deriving DecidableEq, Repr

/-- The `reflect.Kind` of an opaque kind. -/
def OpaqueKind.toKind : OpaqueKind → Kind
  | .Bool => .Bool | .Int => .Int | .Int8 => .Int8 | .Int16 => .Int16
  | .Int32 => .Int32 | .Int64 => .Int64
  | .Uint => .Uint | .Uint8 => .Uint8 | .Uint16 => .Uint16
  | .Uint32 => .Uint32 | .Uint64 => .Uint64 | .Uintptr => .Uintptr
  | .Float32 => .Float32 | .Float64 => .Float64
  | .Complex64 => .Complex64 | .Complex128 => .Complex128
  | .Func => .Func | .Interface => .Interface | .String => .String
  | .UnsafePointer => .UnsafePointer

/-- The Go type `reflect.ChanDir` is an `int`. -/
abbrev ChanDir := Nat

/-- The constant `reflect.RecvDir` (`1 << iota`). -/
def RecvDir : ChanDir := 1

/-- The constant `reflect.SendDir`. -/
def SendDir : ChanDir := 2

/-- The constant `reflect.BothDir` (`RecvDir | SendDir`). -/
def BothDir : ChanDir := 3

/-- What every `reflect.Type` reports whatever its kind: `Name()`, `PkgPath()`
and `String()`, the default textual representation that `%v` prints. -/
structure rtype where
  Name : String
  PkgPath : String
  Str : String
  deriving DecidableEq, Repr

/-- The fields of `reflect.StructField` that the renderer reads. -/
structure StructField (τ : Type) where
  Name : String
  Typ : τ
  Tag : String
  Anonymous : Bool
  deriving Repr

/-- A `reflect.Type`: one constructor per kind that has an element, a key or
fields, and `other` for all the other kinds. -/
inductive ReflectType where
  | ptr (h : rtype) (elem : ReflectType)
  | slice (h : rtype) (elem : ReflectType)
  | array (h : rtype) (len : Nat) (elem : ReflectType)
  | chan (h : rtype) (dir : ChanDir) (elem : ReflectType)
  | map (h : rtype) (key : ReflectType) (elem : ReflectType)
  | struct (h : rtype) (fields : List (StructField ReflectType))
  | other (k : OpaqueKind) (h : rtype)
  deriving Repr

namespace ReflectType

/-- The common part of a type. -/
def hdr : ReflectType → rtype
  | ptr h _ => h
  | slice h _ => h
  | array h _ _ => h
  | chan h _ _ => h
  | map h _ _ => h
  | struct h _ => h
  | other _ h => h

/-- The method `Type.Kind()`. -/
def Kind : ReflectType → Kind
  | ptr _ _ => .Ptr
  | slice _ _ => .Slice
  | array _ _ _ => .Array
  | chan _ _ _ => .Chan
  | map _ _ _ => .Map
  | struct _ _ => .Struct
  | other k _ => k.toKind

/-- The method `Type.Name()`. -/
def Name (t : ReflectType) : String := t.hdr.Name

/-- The method `Type.PkgPath()`. -/
def PkgPath (t : ReflectType) : String := t.hdr.PkgPath

/-- The method `Type.String()`, which is what `%v` prints for a type. -/
def String (t : ReflectType) : String := t.hdr.Str

end ReflectType

/-! ## `type.go` and `gofile.go`: the file object -/

/-- The struct `typeDef`: the data passed to the template for a declaration. -/
structure typeDef where
  Comment : String
  Name : String
  Definition : String
  deriving DecidableEq, Repr

/-- The fields of `wrap.Wrapper` that `newCommentWrapper` sets. -/
structure Wrapper where
  OutputLinePrefix : String
  TrimInputPrefix : String
  StripTrailingNewline : Bool
  deriving DecidableEq, Repr

/-- A Go map `map[string]typeDef`: `none` is the nil map, which the zero value
`GoFile{}` holds; `some` is an allocated map, as `make` returns it, with the
list of its entries, newest last, no key twice. -/
abbrev TypeMap := Option (List (String × typeDef))

/-- The struct `GoFile`, with the fields of the embedded `goFileTmplInput`. -/
structure GoFile where
  pkgPath : String
  wrapper : Wrapper
  commentLineWrap : Int
  Preamble : String
  PkgComment : String
  PkgName : String
  Imports : List String
  Types : TypeMap
  deriving DecidableEq, Repr

/-- What a call does that takes a `*GoFile` and returns an `error`, or that
returns a `GoFile` and an `error`: the file as the call leaves it, the error
it returns, and the value of the panic when the call panics instead of
returning. A call that panics returns no error. -/
structure Outcome where
  file : GoFile
  err : Option String
  panics : Option String
  deriving DecidableEq, Repr

/-- The call returns: it leaves the file `f` and returns the error `err`. -/
def returned (f : GoFile) (err : Option String) : Outcome :=
  { file := f, err := err, panics := none }

/-- The call panics with the value `v`, and the file is `f` at that point. -/
def panicked (f : GoFile) (v : String) : Outcome :=
  { file := f, err := none, panics := some v }

/-- The marker `renderChan` writes for a channel direction: its `switch` has
no default, so any other value leaves `chanDir` empty. -/
def chanDirText (dir : ChanDir) : String :=
  if dir = RecvDir then "<-chan "
  else if dir = SendDir then "chan<- "
  else if dir = BothDir then "chan "
  else ""

/-- The branch of `render` for a type that has a name (`type.go`, lines 77 to
89): the name as `%v` prints it and one more import when the type belongs to
another package, the bare name otherwise. -/
def renderNamed (f : GoFile) (buf : String) (h : rtype) : GoFile × String :=
  if h.PkgPath ≠ "" ∧ h.PkgPath ≠ f.pkgPath then
    ({ f with Imports := f.Imports ++ [h.PkgPath] }, buf ++ h.Str)
  else (f, buf ++ h.Name)

mutual
/-- The method `GoFile.render`: writes the definition of `typ` to `buf` and
appends to `f.Imports`. The test for a pointer comes first, then the test for
a name, then the `switch` on the kind; `renderSlice`, `renderChan`,
`renderMap` and `renderStruct` are unfolded in their cases. -/
def render (f : GoFile) (buf : String) : ReflectType → GoFile × String
  -- if typ.Kind() == reflect.Ptr
  | .ptr _ elem => render f (buf ++ "*") elem
  -- case reflect.Slice: renderSlice
  | .slice h elem =>
    if h.Name ≠ "" then renderNamed f buf h
    else render f (buf ++ "[]") elem
  -- default: fmt.Fprintf(buf, "%v", typ)
  | .array h _ _ =>
    if h.Name ≠ "" then renderNamed f buf h
    else (f, buf ++ h.Str)
  -- case reflect.Chan: renderChan
  | .chan h dir elem =>
    if h.Name ≠ "" then renderNamed f buf h
    else render f (buf ++ chanDirText dir) elem
  -- case reflect.Map: renderMap
  | .map h key elem =>
    if h.Name ≠ "" then renderNamed f buf h
    else
      let r := render f (buf ++ "map[") key
      render r.1 (r.2 ++ "]") elem
  -- case reflect.Struct: renderStruct
  | .struct h fields =>
    if h.Name ≠ "" then renderNamed f buf h
    else
      let r := renderFields f (buf ++ "struct \x7b\n") fields
      (r.1, r.2 ++ "\x7d")
  -- default: fmt.Fprintf(buf, "%v", typ)
  | .other _ h =>
    if h.Name ≠ "" then renderNamed f buf h
    else (f, buf ++ h.Str)
/-- The loop of `renderStruct` over the fields that are left; `len(sf.Tag)`
counts bytes and is positive exactly when the tag has a character. -/
def renderFields (f : GoFile) (buf : String) :
    List (StructField ReflectType) → GoFile × String
  | [] => (f, buf)
  | sf :: rest =>
    let name := if sf.Anonymous then "" else sf.Name
    let r := render f (buf ++ "\t" ++ name ++ " ") sf.Typ
    let buf := if sf.Tag.length > 0 then r.2 ++ " `" ++ sf.Tag ++ "`" else r.2
    renderFields r.1 (buf ++ "\n") rest
end

/-- What `append(f.Imports, ...)` leaves: the file `f` with `paths` added at
the end of its import list. -/
def addImports (f : GoFile) (paths : List String) : GoFile :=
  { f with Imports := f.Imports ++ paths }

/-- The text that `render` writes for `typ` in the file `f`: what a call on an
empty buffer leaves in the buffer. -/
def rendered (f : GoFile) (typ : ReflectType) : String :=
  (render { f with Imports := [] } "" typ).2

/-- The import paths that `render` records for `typ` in the file `f`: what a
call on an empty import list leaves in the list. -/
def recorded (f : GoFile) (typ : ReflectType) : List String :=
  (render { f with Imports := [] } "" typ).1.Imports

/-- The type `typ` under one pointer level per element of `hs`, the outermost
first; `hs` gives what each pointer type reports as name, path and string. -/
def pointerTo (hs : List rtype) (typ : ReflectType) : ReflectType :=
  hs.foldr ReflectType.ptr typ

/-- The line of a struct field as the specification words it: a tab, the name
unless the field is embedded, a space, the rendered type, the tag between
backticks after a space if there is a tag, and a newline. -/
def fieldLine (f : GoFile) (sf : StructField ReflectType) : String :=
  "\t" ++ (if sf.Anonymous then "" else sf.Name) ++ " " ++ rendered f sf.Typ ++
    (if sf.Tag ≠ "" then " `" ++ sf.Tag ++ "`" else "") ++ "\n"

mutual
/-- The named types that the text of `typ` refers to through pointers, slices,
channels, maps and struct fields: what each of them reports as name, package
path and string. -/
def reached : ReflectType → List rtype
  | .ptr _ elem => reached elem
  | .slice h elem => if h.Name ≠ "" then [h] else reached elem
  | .array h _ _ => if h.Name ≠ "" then [h] else []
  | .chan h _ elem => if h.Name ≠ "" then [h] else reached elem
  | .map h key elem => if h.Name ≠ "" then [h] else reached key ++ reached elem
  | .struct h fields => if h.Name ≠ "" then [h] else reachedFields fields
  | .other _ h => if h.Name ≠ "" then [h] else []
/-- The named types that the field types refer to. -/
def reachedFields : List (StructField ReflectType) → List rtype
  | [] => []
  | sf :: rest => reached sf.Typ ++ reachedFields rest
end

/-! ### Types that refer to themselves -/

/-- What `reflect.Type` reports at one type when the element, key and field
types are given by reference, as numbers in a `TypeGraph`; a declaration such
as `type P *P` is then a node that refers to itself. -/
inductive TypeNode where
  | ptr (h : rtype) (elem : Nat)
  | slice (h : rtype) (elem : Nat)
  | array (h : rtype) (len : Nat) (elem : Nat)
  | chan (h : rtype) (dir : ChanDir) (elem : Nat)
  | map (h : rtype) (key : Nat) (elem : Nat)
  | struct (h : rtype) (fields : List (StructField Nat))
  | other (k : OpaqueKind) (h : rtype)
  deriving Repr

namespace TypeNode

/-- The common part of a type. -/
def hdr : TypeNode → rtype
  | ptr h _ => h
  | slice h _ => h
  | array h _ _ => h
  | chan h _ _ => h
  | map h _ _ => h
  | struct h _ => h
  | other _ h => h

/-- The method `Type.Kind()`. -/
def Kind : TypeNode → Kind
  | ptr _ _ => .Ptr
  | slice _ _ => .Slice
  | array _ _ _ => .Array
  | chan _ _ _ => .Chan
  | map _ _ _ => .Map
  | struct _ _ => .Struct
  | other k _ => k.toKind

end TypeNode

/-- The types of a program, numbered. -/
abbrev TypeGraph := Nat → TypeNode

/-- The loop of `renderStruct` when the call of `render` on a field type is
`call`, which gives `none` when it does not return. -/
def renderFieldsOn (call : GoFile → String → Nat → Option (GoFile × String))
    (f : GoFile) (buf : String) : List (StructField Nat) → Option (GoFile × String)
  | [] => some (f, buf)
  | sf :: rest =>
    let name := if sf.Anonymous then "" else sf.Name
    match call f (buf ++ "\t" ++ name ++ " ") sf.Typ with
    | none => none
    | some r =>
      let buf := if sf.Tag.length > 0 then r.2 ++ " `" ++ sf.Tag ++ "`" else r.2
      renderFieldsOn call r.1 (buf ++ "\n") rest

/-- The method `GoFile.render` on the type number `typ` of the graph `g`, with
calls nested at most `depth` deep: `none` when a call at that depth would call
again, `some` with what `render` leaves when it returns. The body is that of
`render`. -/
def renderOn (g : TypeGraph) : Nat → GoFile → String → Nat → Option (GoFile × String)
  | 0, _, _, _ => none
  | depth + 1, f, buf, typ =>
    match g typ with
    | .ptr _ elem => renderOn g depth f (buf ++ "*") elem
    | .slice h elem =>
      if h.Name ≠ "" then some (renderNamed f buf h)
      else renderOn g depth f (buf ++ "[]") elem
    | .array h _ _ =>
      if h.Name ≠ "" then some (renderNamed f buf h)
      else some (f, buf ++ h.Str)
    | .chan h dir elem =>
      if h.Name ≠ "" then some (renderNamed f buf h)
      else renderOn g depth f (buf ++ chanDirText dir) elem
    | .map h key elem =>
      if h.Name ≠ "" then some (renderNamed f buf h)
      else
        match renderOn g depth f (buf ++ "map[") key with
        | none => none
        | some r => renderOn g depth r.1 (r.2 ++ "]") elem
    | .struct h fields =>
      if h.Name ≠ "" then some (renderNamed f buf h)
      else
        match renderFieldsOn (renderOn g depth) f (buf ++ "struct \x7b\n") fields with
        | none => none
        | some r => some (r.1, r.2 ++ "\x7d")
    | .other _ h =>
      if h.Name ≠ "" then some (renderNamed f buf h)
      else some (f, buf ++ h.Str)

/-- The types that a call of `render` on `typ` calls `render` on: the element
of a pointer, and the element, key or field types of an unnamed slice,
channel, map or struct. -/
def callees (g : TypeGraph) (typ : Nat) : List Nat :=
  match g typ with
  | .ptr _ elem => [elem]
  | .slice h elem => if h.Name ≠ "" then [] else [elem]
  | .array _ _ _ => []
  | .chan h _ elem => if h.Name ≠ "" then [] else [elem]
  | .map h key elem => if h.Name ≠ "" then [] else [key, elem]
  | .struct h fields => if h.Name ≠ "" then [] else fields.map (fun sf => sf.Typ)
  | .other _ _ => []

/-! ### The map `Types` -/

/-- The keys of a Go map; the nil map has none. -/
def mapKeys (m : TypeMap) : List String :=
  match m with
  | none => []
  | some es => es.map Prod.fst

/-- The read `v, ok := m[k]` of a Go map: `none` when `ok` is false, as it is
for every key of the nil map. -/
def mapGet (m : TypeMap) (k : String) : Option typeDef :=
  match m with
  | none => none
  | some es => es.lookup k

/-- The entries of an allocated map after the assignment `m[k] = v`. -/
def setEntry (es : List (String × typeDef)) (k : String) (v : typeDef) :
    List (String × typeDef) :=
  es.filter (fun e => e.1 ≠ k) ++ [(k, v)]

/-- The assignment `m[k] = v` of a Go map: the map afterwards, or the value of
the panic of the Go runtime when `m` is the nil map. -/
def mapSet (m : TypeMap) (k : String) (v : typeDef) : Except String TypeMap :=
  match m with
  | none => .error "assignment to entry in nil map"
  | some es => .ok (some (setEntry es k v))

/-! ### `DefineType` -/

/-- The type `TypeOption`, a `func(*typeDef)`. -/
abbrev TypeOption := typeDef → typeDef

/-- The function `Comment`: adds a top level comment to a defined type. -/
def Comment (cmt : String) : TypeOption :=
  fun t => { t with Comment := cmt }

/-- The method `GoFile.DefineType`. It returns the error for a name that is a
key of `f.Types`; otherwise it renders the type, which appends to `f.Imports`,
and then assigns `f.Types[name]`, which panics when `f.Types` is the nil map. -/
def GoFile.DefineType (f : GoFile) (name : String) (typ : ReflectType)
    (opts : List TypeOption) : Outcome :=
  -- if _, ok := f.Types[name]; ok
  if (mapGet f.Types name).isSome then
    returned f (some ("type already defined: " ++ name))
  else
    let typDef : typeDef := { Name := name, Comment := "", Definition := "" }
    let typDef := opts.foldl (fun d opt => opt d) typDef
    let r := render f "" typ
    let typDef := { typDef with Definition := r.2 }
    -- f.Types[name] = typDef
    match mapSet r.1.Types name typDef with
    | .error v => panicked r.1 v
    | .ok m => returned { r.1 with Types := m } none

/-- The method `GoFile.DefineType` on the type number `typ` of the graph `g`,
with the calls of `render` nested at most `depth` deep: `none` when `render`
does not return within that depth. The body is that of `GoFile.DefineType`. -/
def GoFile.DefineTypeOn (f : GoFile) (g : TypeGraph) (depth : Nat) (name : String)
    (typ : Nat) (opts : List TypeOption) : Option Outcome :=
  -- if _, ok := f.Types[name]; ok
  if (mapGet f.Types name).isSome then
    some (returned f (some ("type already defined: " ++ name)))
  else
    let typDef : typeDef := { Name := name, Comment := "", Definition := "" }
    let typDef := opts.foldl (fun d opt => opt d) typDef
    match renderOn g depth f "" typ with
    | none => none
    | some r =>
      let typDef := { typDef with Definition := r.2 }
      -- f.Types[name] = typDef
      match mapSet r.1.Types name typDef with
      | .error v => some (panicked r.1 v)
      | .ok m => some (returned { r.1 with Types := m } none)

/-! ### `NewGoFile` and its options -/

/-- The type `Option` of `gofile.go`, a `func(*GoFile) error`: the file as the
option leaves it and the error it returns, or the value of its panic. -/
abbrev GoFileOption := GoFile → Outcome

/-- The option `PkgName`. -/
def PkgName (name : String) : GoFileOption :=
  fun f => returned { f with PkgName := name } none

/-- The option `PkgComment`. -/
def PkgComment (cmnt : String) : GoFileOption :=
  fun f => returned { f with PkgComment := cmnt } none

/-- The option `PreambleComment`. -/
def PreambleComment (cmnt : String) : GoFileOption :=
  fun f => returned { f with Preamble := cmnt } none

/-- The option `DefineType`. -/
def DefineType (name : String) (typ : ReflectType) (opts : List TypeOption) :
    GoFileOption :=
  fun f => f.DefineType name typ opts

/-- The constant `DefaultCommentLineWrap`. -/
def DefaultCommentLineWrap : Int := 79

/-- The option `CommentLineWrap`. -/
def CommentLineWrap (limit : Int) : GoFileOption :=
  fun f => returned { f with commentLineWrap := limit } none

/-- The option `Import` of `gofile_test.go`, which adds import paths. -/
def Import (paths : List String) : GoFileOption :=
  fun gf => returned { gf with Imports := gf.Imports ++ paths } none

/-- The function `newCommentWrapper`; the fields of `wrap.Wrapper` it does not
set keep what `wrap.NewWrapper` gives them. -/
def newCommentWrapper : Wrapper :=
  { OutputLinePrefix := "// ", TrimInputPrefix := "// ", StripTrailingNewline := true }

/-- The zero value `GoFile{}`; its map `Types` is the nil map. -/
def GoFile.zero : GoFile :=
  { pkgPath := "", wrapper := ⟨"", "", false⟩, commentLineWrap := 0, Preamble := "",
    PkgComment := "", PkgName := "", Imports := [], Types := none }

/-- The function `path.Base` of the Go standard library: `"."` for the empty
path; otherwise trailing slashes are removed, then everything up to the last
slash, and a path of slashes only gives `"/"`. -/
def pathBase (path : String) : String :=
  if path = "" then "."
  else
    let stripped := (path.toList.reverse.dropWhile (fun c => c = '/')).reverse
    let last := (stripped.reverse.takeWhile (fun c => c ≠ '/')).reverse
    if last = [] then "/" else String.mk last

/-- The last slash-separated segment of a path as the specification words it:
what follows the last slash, the whole path when it has no slash. -/
def lastSegment (path : String) : String :=
  String.mk (path.toList.reverse.takeWhile (fun c => c ≠ '/')).reverse

/-- The loop of `NewGoFile` over its options: what the call of `NewGoFile`
does from there, and (a ghost value) how many options were called. An option
that returns an error makes `NewGoFile` return `GoFile{}` and the error; an
option that panics makes `NewGoFile` panic, and nothing is returned. -/
def applyOptions (gf : GoFile) : List GoFileOption → Outcome × Nat
  | [] => (returned gf none, 0)
  | opt :: rest =>
    match (opt gf).err, (opt gf).panics with
    | some err, _ => (returned GoFile.zero (some err), 1)
    | none, some v => (panicked GoFile.zero v, 1)
    | none, none =>
      let r := applyOptions (opt gf).file rest
      (r.1, r.2 + 1)

/-- The composite literal of `NewGoFile`: the file before the options, its map
`Types` allocated by `make`. -/
def newFile (pkgPath : String) : GoFile :=
  { pkgPath := pkgPath, wrapper := newCommentWrapper,
    commentLineWrap := DefaultCommentLineWrap, Preamble := "", PkgComment := "",
    PkgName := pathBase pkgPath, Imports := [], Types := some [] }

/-- The function `NewGoFile` with the ghost count of the options it called. -/
def NewGoFileCalls (pkgPath : String) (opts : List GoFileOption) : Outcome × Nat :=
  if pkgPath = "" then (returned GoFile.zero (some "package path is empty"), 0)
  else applyOptions (newFile pkgPath) opts

/-- The function `NewGoFile`: the file returned and the error, or the panic of
an option. -/
def NewGoFile (pkgPath : String) (opts : List GoFileOption) : Outcome :=
  (NewGoFileCalls pkgPath opts).1

/-- The file that the options leave when each is applied to the file left by
the ones before it and each returns without an error; `none` if one returns an
error or panics. -/
def afterOptions (gf : GoFile) : List GoFileOption → Option GoFile
  | [] => some gf
  | opt :: rest =>
    if (opt gf).2 = none ∧ (opt gf).panics = none then afterOptions (opt gf).1 rest
    else none

/-- An option that never changes the package name. -/
def keepsPkgName (opt : GoFileOption) : Prop :=
  ∀ g : GoFile, (opt g).1.PkgName = g.PkgName

/-- A registration of a type: the name, the type and the comments of a call
`DefineType(name, typ, Comment(c)...)`. -/
abbrev Registration := String × ReflectType × List String

/-- The option `DefineType` of a registration. -/
def register (r : Registration) : GoFileOption :=
  DefineType r.1 r.2.1 (r.2.2.map Comment)

/-- The file `f` with `paths` added to its imports and `v` stored under the
key `k` of its allocated map: what a call of `DefineType` that succeeds leaves. -/
def withType (f : GoFile) (paths : List String) (k : String) (v : typeDef) : GoFile :=
  { f with Imports := f.Imports ++ paths,
           Types := f.Types.map (fun es => setEntry es k v) }

/-- The entry that a registration stores in the file `f`. -/
def entryOf (f : GoFile) (r : Registration) : typeDef :=
  { Name := r.1, Comment := r.2.2.getLast?.getD "", Definition := rendered f r.2.1 }

/-- A call of one of the five functions of `gofile.go` that return an option,
`DefineType` with `Comment` options. -/
inductive OptionCall where
  | PkgName (name : String)
  | PkgComment (cmnt : String)
  | PreambleComment (cmnt : String)
  | CommentLineWrap (limit : Int)
  | DefineType (r : Registration)

/-- The option that a call returns. -/
def OptionCall.option : OptionCall → GoFileOption
  | .PkgName name => Reflect2go.PkgName name
  | .PkgComment cmnt => Reflect2go.PkgComment cmnt
  | .PreambleComment cmnt => Reflect2go.PreambleComment cmnt
  | .CommentLineWrap limit => Reflect2go.CommentLineWrap limit
  | .DefineType r => register r

/-- Two calls that do not set one field to two values. -/
def OptionCall.agree : OptionCall → OptionCall → Prop
  | .PkgName a, .PkgName b => a = b
  | .PkgComment a, .PkgComment b => a = b
  | .PreambleComment a, .PreambleComment b => a = b
  | .CommentLineWrap a, .CommentLineWrap b => a = b
  | _, _ => True

/-- The package name that a call sets, if it is a call of `PkgName`. -/
def OptionCall.setsPkgName : OptionCall → Option String
  | .PkgName name => some name
  | _ => none

/-- The package comment that a call sets, if it is a call of `PkgComment`. -/
def OptionCall.setsPkgComment : OptionCall → Option String
  | .PkgComment cmnt => some cmnt
  | _ => none

/-- The preamble that a call sets, if it is a call of `PreambleComment`. -/
def OptionCall.setsPreamble : OptionCall → Option String
  | .PreambleComment cmnt => some cmnt
  | _ => none

/-- The wrap width that a call sets, if it is a call of `CommentLineWrap`. -/
def OptionCall.setsLineWrap : OptionCall → Option Int
  | .CommentLineWrap limit => some limit
  | _ => none

/-- The name of the type that a call defines, if it is a call of `DefineType`. -/
def OptionCall.defines : OptionCall → List String
  | .DefineType r => [r.1]
  | _ => []

/-- The import paths that a call records in a file of package path `f.pkgPath`. -/
def OptionCall.records (f : GoFile) : OptionCall → List String
  | .DefineType r => recorded f r.2.1
  | _ => []

/-! ## `template.go`: the assembly of the file -/

/-- The order of Go strings, byte by byte; on valid UTF-8 it is the order of
the lists of characters. -/
def stringLE (a b : String) : Prop := a.toList ≤ b.toList

instance stringLE.decidable : DecidableRel stringLE :=
  fun a b => inferInstanceAs (Decidable (a.toList ≤ b.toList))

/-- The registrations in ascending order of their names, as the specification
words the order of the declarations. -/
def sortByName (regs : List Registration) : List Registration :=
  regs.insertionSort (fun a b => stringLE a.1 b.1)

/-- The functions that `Render` calls outside the repository: `Wrap` of
`github.com/bbrks/wrap`, the verb `%q` of `fmt`, and `format.Source`, which
fails on text that is no valid Go. -/
structure Collaborators where
  Wrap : Wrapper → String → Int → String
  Quote : String → String
  Source : String → Except String String

/-- The template function `wrap` that `Render` installs. -/
def wrapComment (x : Collaborators) (f : GoFile) (s : String) : String :=
  x.Wrap f.wrapper s f.commentLineWrap

/-- The keys of a map in the order in which `text/template` visits them:
sorted, as its `range` does for a map with string keys, and as the comment of
`NewGoFile` says ("defined types are sorted alphabetically prior to output"). -/
def sortedKeys (m : TypeMap) : List String :=
  (mapKeys m).dedup.insertionSort stringLE

/-- The action `range .Types`: the entries of the map in the order of
`sortedKeys`. -/
def rangeTypes (m : TypeMap) : List (String × typeDef) :=
  (sortedKeys m).filterMap (fun k => (mapGet m k).map (fun v => (k, v)))

/-- Lines 32 to 38 of the template: the preamble and the package comment, each
under the test `ne .PkgComment ""`. -/
def tmplComments (x : Collaborators) (f : GoFile) : String :=
  (if f.PkgComment ≠ "" then "\n" ++ wrapComment x f f.Preamble ++ "\n\n" else "") ++
    (if f.PkgComment ≠ "" then "\n" ++ wrapComment x f f.PkgComment else "")

/-- Line 39 of the template: the package clause. -/
def tmplPackage (f : GoFile) : String :=
  "\npackage " ++ f.PkgName

/-- Lines 40 to 50 of the template: the import block. -/
def tmplImports (x : Collaborators) (f : GoFile) : String :=
  if f.Imports.length = 1 then "\n\nimport " ++ x.Quote (f.Imports.headD "")
  else if f.Imports.length > 1 then
    "\n\nimport (" ++
      String.join (f.Imports.map (fun p => "\n        " ++ x.Quote p)) ++ "\n)"
  else ""

/-- Lines 53 to 56 of the template: one type declaration. -/
def tmplType (x : Collaborators) (f : GoFile) (t : typeDef) : String :=
  (if t.Comment ≠ "" then "\n" ++ wrapComment x f t.Comment else "") ++
    "\ntype " ++ t.Name ++ " " ++ t.Definition

/-- Lines 52 to 57 of the template: the type declarations. -/
def tmplTypes (x : Collaborators) (f : GoFile) : String :=
  String.join ((rangeTypes f.Types).map (fun e => tmplType x f e.2))

/-- The execution of the template `gofile` on the file `f`. -/
def execTemplate (x : Collaborators) (f : GoFile) : String :=
  tmplComments x f ++ tmplPackage f ++ tmplImports x f ++ tmplTypes x f ++ "\n"

/-- The method `GoFile.Render`: the text written to `w`, or the value of the
panic when `format.Source` rejects the text of the template. -/
def GoFile.Render (x : Collaborators) (f : GoFile) : Except String String :=
  x.Source (execTemplate x f)

/-- What the copy of a `GoFile` on which a method with a value receiver works
shares with the file of the caller: the array of the slice `Imports` and the
map `Types`. A write to one of them is a write to the file of the caller; the
other fields of the copy are its own. -/
structure Shared where
  Imports : List String
  Types : TypeMap
  deriving DecidableEq, Repr

/-- The call `gofileTmpl.Execute(&buf, f)` of `Render`: the array and the map
that `f` refers to as the call leaves them, and the text written to `buf`.
The actions of the template read and print fields and range over `Imports`
and `Types`; the template has no action that assigns to its data. -/
def Execute (x : Collaborators) (f : GoFile) : Shared × String :=
  ({ Imports := f.Imports, Types := f.Types }, execTemplate x f)

/-- The call `f.Render(w)` as the caller sees it: the file of the caller after
the call and what `w` holds after it, or the value of the panic. The receiver
is a copy of the file, so that the call can change of the file only what the
copy shares with it. -/
def GoFile.RenderCall (x : Collaborators) (f : GoFile) (w : String) :
    Except String (GoFile × String) :=
  -- gofileTmpl.Execute(&buf, f)
  let r := Execute x f
  -- gofmt, err := format.Source(buf.Bytes())
  match x.Source r.2 with
  | .error err => .error err
  -- w.Write(gofmt)
  | .ok gofmt => .ok ({ f with Imports := r.1.Imports, Types := r.1.Types }, w ++ gofmt)

/-- The removal of a path that equals its successor. -/
def collapseAdjacent : List String → List String
  | [] => []
  | [s] => [s]
  | s :: t :: rest =>
    if s = t then collapseAdjacent (t :: rest) else s :: collapseAdjacent (t :: rest)

/-- Modelled from the spec: the pass that sorts and de-duplicates the import
paths before emission. No code under `src/` makes it (the template lists
`Imports` as accumulated); in the program it is `format.Source` of the Go
standard library, which sorts the import block by path and drops a path equal
to its successor. -/
def sortImports (paths : List String) : List String :=
  collapseAdjacent (paths.insertionSort stringLE)

/-- Modelled from the spec: the import paths in the output of `Render`, that
is the paths the template lists after the pass `sortImports` of the formatter,
which is absent from `src/`. -/
def GoFile.emittedImports (f : GoFile) : List String :=
  sortImports f.Imports

/-! ## The inputs of the tests -/

/-- Stand-ins for the collaborators, to evaluate the template on examples: the
comment after `// ` on one line, the path between double quotes, and a
formatter that returns its input. -/
def plainCollaborators : Collaborators :=
  { Wrap := fun w s _ => w.OutputLinePrefix ++ s,
    Quote := fun s => "\"" ++ s ++ "\"",
    Source := fun src => .ok src }


/-- The type `int`. -/
def intType : ReflectType := .other .Int ⟨"int", "", "int"⟩

/-- The type `string`. -/
def stringType : ReflectType := .other .String ⟨"string", "", "string"⟩

/-- The type `float64`. -/
def float64Type : ReflectType := .other .Float64 ⟨"float64", "", "float64"⟩

/-- The struct type that `ExampleGoFile` builds with `reflect.StructOf`. -/
def updatedTags : ReflectType :=
  .struct ⟨"", "", "struct \x7b A int \"json:\\\"a\\\" env:\\\"A\\\"\"; B int \"json:\\\"b\\\" env:\\\"B\\\"\" \x7d"⟩
    [⟨"A", intType, "json:\"a\" env:\"A\"", false⟩,
     ⟨"B", intType, "json:\"b\" env:\"B\"", false⟩]

/-- The type `GoFileTest` of `gofile_test.go`; the fields of the named struct
types below it are left out. -/
def goFileTest : ReflectType :=
  .struct ⟨"GoFileTest", "github.com/AdamSLevy/reflect2go", "reflect2go.GoFileTest"⟩
    [⟨"Name", stringType, "", false⟩,
     ⟨"GoFile", .struct ⟨"GoFile", "github.com/AdamSLevy/reflect2go", "reflect2go.GoFile"⟩ [],
       "", false⟩,
     ⟨"Expected", stringType, "", false⟩]

/-- The type `struct{}` of `TestGoFile`. -/
def emptyStruct : ReflectType := .struct ⟨"", "", "struct \x7b\x7d"⟩ []

/-- The type `time.Time`, its fields left out. -/
def timeTime : ReflectType := .struct ⟨"Time", "time", "time.Time"⟩ []

/-- The type `[2]time.Time`. -/
def arrayOfTime : ReflectType := .array ⟨"", "", "[2]time.Time"⟩ 2 timeTime

/-- The type `P` of a declaration `type P *int` in a package `main`. -/
def namedPointer : ReflectType := .ptr ⟨"P", "main", "main.P"⟩ intType

/-- The type `P` of a declaration `type P *P` in a package `main`: every
number is `P`. -/
def selfPointer : TypeGraph := fun _ => .ptr ⟨"P", "main", "main.P"⟩ 0

/-- The types of a declaration `type S struct { next *S }` in a package
`main`: the number `0` is `S`, every other number is `*S`. -/
def selfStruct : TypeGraph := fun typ =>
  if typ = 0 then .struct ⟨"S", "main", "main.S"⟩ [⟨"next", 1, "", false⟩]
  else .ptr ⟨"", "", "*main.S"⟩ 0

/-- The file `NewGoFile("pkg")` of `ExampleGoFile`. -/
def pkgFile : GoFile := (NewGoFile "pkg" []).1

/-- The file `NewGoFile("path/to/pkg")` of the tests. -/
def pathToPkgFile : GoFile := (NewGoFile "path/to/pkg" []).1

/-- The file `NewGoFile("github.com/AdamSLevy/reflect2go")` of the tests. -/
def reflect2goFile : GoFile := (NewGoFile "github.com/AdamSLevy/reflect2go" []).1

/-- The registrations of a type `S`, the struct of `ExampleGoFile` with a
comment, and then of a type `A`, the type `int`. -/
def regsSA : List Registration :=
  [("S", updatedTags, ["S is a test type."]), ("A", intType, [])]

/-- The same registrations, `A` first. -/
def regsAS : List Registration :=
  [("A", intType, []), ("S", updatedTags, ["S is a test type."])]

/-- The file `NewGoFile("pkg", DefineType("S", ...), DefineType("A", ...))`. -/
def fileSA : GoFile := (NewGoFile "pkg" (regsSA.map register)).1

/-- The file `NewGoFile("pkg", DefineType("A", ...), DefineType("S", ...))`. -/
def fileAS : GoFile := (NewGoFile "pkg" (regsAS.map register)).1

/-- The type `*time.Time`. -/
def pointerToTime : ReflectType := .ptr ⟨"", "", "*time.Time"⟩ timeTime

/-- The file of a package `pkg` with a preamble, a package comment, a type `T`
with a comment, defined from `*time.Time`, and a type `A`, defined from `int`. -/
def richFile : GoFile :=
  (NewGoFile "pkg"
    [PreambleComment "LICENSE GOES HERE", PkgComment "Package pkg has types.",
     DefineType "T" pointerToTime [Comment "T is a time."],
     DefineType "A" intType []]).1

/-- The same file with the type `A` defined before the type `T`. -/
def richFileSwapped : GoFile :=
  (NewGoFile "pkg"
    [PreambleComment "LICENSE GOES HERE", PkgComment "Package pkg has types.",
     DefineType "A" intType [],
     DefineType "T" pointerToTime [Comment "T is a time."]]).1

/-- The calls `DefineType("A", time.Time)`, `DefineType("B", GoFileTest)` and
`PkgName("foo")`. -/
def callsAB : List OptionCall :=
  [.DefineType ("A", timeTime, []), .DefineType ("B", goFileTest, []), .PkgName "foo"]

/-- The same calls, `DefineType("B", GoFileTest)` first. -/
def callsBA : List OptionCall :=
  [.DefineType ("B", goFileTest, []), .DefineType ("A", timeTime, []), .PkgName "foo"]

/-- The file that `NewGoFile("pkg", ...)` returns for the calls `callsAB`. -/
def fileAB : GoFile := (NewGoFile "pkg" (callsAB.map OptionCall.option)).1

/-- The file that `NewGoFile("pkg", ...)` returns for the calls `callsBA`. -/
def fileBA : GoFile := (NewGoFile "pkg" (callsBA.map OptionCall.option)).1

/-! ## The renderer writes after the buffer and appends to the imports -/

theorem length_pos_iff_ne_empty (s : String) : s.length > 0 ↔ s ≠ "" := by
  cases s with
  | mk l => cases l <;> simp [String.length, String.ext_iff]

@[simp] theorem addImports_pkgPath (f : GoFile) (l : List String) :
    (addImports f l).pkgPath = f.pkgPath := rfl

@[simp] theorem addImports_Imports (f : GoFile) (l : List String) :
    (addImports f l).Imports = f.Imports ++ l := rfl

@[simp] theorem addImports_nil (f : GoFile) : addImports f [] = f := by
  simp [addImports]

@[simp] theorem addImports_addImports (f : GoFile) (a b : List String) :
    addImports (addImports f a) b = addImports f (a ++ b) := by
  simp [addImports]

@[simp] theorem rendered_addImports (f : GoFile) (l : List String) (t : ReflectType) :
    rendered (addImports f l) t = rendered f t := rfl

@[simp] theorem recorded_addImports (f : GoFile) (l : List String) (t : ReflectType) :
    recorded (addImports f l) t = recorded f t := rfl

theorem renderNamed_shape (h : rtype) (p : String) :
    ∃ I T, ∀ (f : GoFile) (buf : String), f.pkgPath = p →
      renderNamed f buf h = (addImports f I, buf ++ T) := by
  by_cases hc : h.PkgPath ≠ "" ∧ h.PkgPath ≠ p
  · exact ⟨[h.PkgPath], h.Str, fun f buf hp => by
      subst hp; simp [renderNamed, hc, addImports]⟩
  · exact ⟨[], h.Name, fun f buf hp => by subst hp; simp [renderNamed, hc]⟩

mutual
theorem render_shape : ∀ (t : ReflectType) (p : String),
    ∃ I T, ∀ (f : GoFile) (buf : String), f.pkgPath = p →
      render f buf t = (addImports f I, buf ++ T)
  | .ptr h e, p => by
    obtain ⟨I, T, ih⟩ := render_shape e p
    exact ⟨I, "*" ++ T, fun f buf hp => by
      simp [render, ih f _ hp, String.append_assoc]⟩
  | .slice h e, p => by
    obtain ⟨I, T, ih⟩ := render_shape e p
    by_cases hn : h.Name ≠ ""
    · simpa [render, hn] using renderNamed_shape h p
    · exact ⟨I, "[]" ++ T, fun f buf hp => by
        simp [render, hn, ih f _ hp, String.append_assoc]⟩
  | .array h _ _, p => by
    by_cases hn : h.Name ≠ ""
    · simpa [render, hn] using renderNamed_shape h p
    · exact ⟨[], h.Str, fun f buf hp => by simp [render, hn]⟩
  | .chan h d e, p => by
    obtain ⟨I, T, ih⟩ := render_shape e p
    by_cases hn : h.Name ≠ ""
    · simpa [render, hn] using renderNamed_shape h p
    · exact ⟨I, chanDirText d ++ T, fun f buf hp => by
        simp [render, hn, ih f _ hp, String.append_assoc]⟩
  | .map h k e, p => by
    obtain ⟨I₁, T₁, ih₁⟩ := render_shape k p
    obtain ⟨I₂, T₂, ih₂⟩ := render_shape e p
    by_cases hn : h.Name ≠ ""
    · simpa [render, hn] using renderNamed_shape h p
    · exact ⟨I₁ ++ I₂, "map[" ++ T₁ ++ "]" ++ T₂, fun f buf hp => by
        simp [render, hn, ih₁ f _ hp, ih₂ (addImports f I₁) _ hp, String.append_assoc]⟩
  | .struct h fs, p => by
    obtain ⟨I, T, ih⟩ := renderFields_shape fs p
    by_cases hn : h.Name ≠ ""
    · simpa [render, hn] using renderNamed_shape h p
    · exact ⟨I, "struct \x7b\n" ++ T ++ "\x7d", fun f buf hp => by
        simp [render, hn, ih f _ hp, String.append_assoc]⟩
  | .other _ h, p => by
    by_cases hn : h.Name ≠ ""
    · simpa [render, hn] using renderNamed_shape h p
    · exact ⟨[], h.Str, fun f buf hp => by simp [render, hn]⟩
theorem renderFields_shape : ∀ (fs : List (StructField ReflectType)) (p : String),
    ∃ I T, ∀ (f : GoFile) (buf : String), f.pkgPath = p →
      renderFields f buf fs = (addImports f I, buf ++ T)
  | [], p => ⟨[], "", fun f buf _ => by simp [renderFields]⟩
  | ⟨name, typ, tag, anon⟩ :: rest, p => by
    obtain ⟨I₁, T₁, ih₁⟩ := render_shape typ p
    obtain ⟨I₂, T₂, ih₂⟩ := renderFields_shape rest p
    exact ⟨I₁ ++ I₂,
      "\t" ++ (if anon then "" else name) ++ " " ++ T₁ ++
        (if tag.length > 0 then " `" ++ tag ++ "`" else "") ++ "\n" ++ T₂,
      fun f buf hp => by
        simp only [renderFields, ih₁ f _ hp, ih₂ (addImports f I₁) _ (by simpa using hp)]
        split <;> simp [String.append_assoc]⟩
end

/-- A call of `render` appends `rendered f t` to the buffer and
`recorded f t` to the import list, and changes nothing else. -/
theorem render_frame (t : ReflectType) (f : GoFile) (buf : String) :
    render f buf t = (addImports f (recorded f t), buf ++ rendered f t) := by
  obtain ⟨I, T, h⟩ := render_shape t f.pkgPath
  have h0 := h { f with Imports := [] } "" rfl
  simp [rendered, recorded, h0, h f buf rfl]

/-- The text and the imports of a type depend on the file through its package
path only. -/
theorem rendered_recorded_congr (t : ReflectType) (f g : GoFile)
    (hp : f.pkgPath = g.pkgPath) :
    rendered f t = rendered g t ∧ recorded f t = recorded g t := by
  obtain ⟨I, T, h⟩ := render_shape t f.pkgPath
  have h1 := h { f with Imports := [] } "" rfl
  have h2 := h { g with Imports := [] } "" hp.symm
  simp [rendered, recorded, h1, h2]

@[simp] theorem fieldLine_addImports (f : GoFile) (l : List String) :
    fieldLine (addImports f l) = fieldLine f := rfl

theorem join_cons (s : String) (l : List String) :
    String.join (s :: l) = s ++ String.join l := by
  simp [String.join_eq, String.ext_iff]

theorem join_append (l₁ l₂ : List String) :
    String.join (l₁ ++ l₂) = String.join l₁ ++ String.join l₂ := by
  simp [String.join_eq, String.ext_iff]

/-- The loop of `renderStruct` writes one `fieldLine` per field. -/
theorem renderFields_lines (fs : List (StructField ReflectType)) (f : GoFile)
    (buf : String) :
    (renderFields f buf fs).2 = buf ++ String.join (fs.map (fieldLine f)) := by
  induction fs generalizing f buf with
  | nil => simp [renderFields, String.join]
  | cons sf rest ih =>
    have ht : (sf.Tag.length > 0) = (sf.Tag ≠ "") :=
      propext (length_pos_iff_ne_empty sf.Tag)
    simp only [renderFields, render_frame, ih, List.map_cons, fieldLine,
      rendered_addImports, fieldLine_addImports, join_cons, ht]
    split <;> simp [String.append_assoc]

/-! ## The renderer -/

/-- C1: for an unnamed struct type `render` writes `struct {` and a newline,
then for each field in declared order the line `fieldLine`: a tab, the field
name (nothing when the field is embedded), a space, the rendered field type,
the tag between backticks after a space exactly when the tag is not empty, and
a newline; and at the end `}`. The tag is copied as it is. -/
theorem render_struct_lines (f : GoFile) (buf : String) (h : rtype)
    (fields : List (StructField ReflectType)) (hn : h.Name = "") :
    (render f buf (.struct h fields)).2 =
      buf ++ "struct \x7b\n" ++ String.join (fields.map (fieldLine f)) ++ "\x7d" := by
  simp [render, hn, renderFields_lines]

/-- C1 at the struct of `ExampleGoFile`, with the text in full. -/
theorem render_struct_lines_witness :
    updatedTags.Name = "" ∧
    (render pkgFile "" updatedTags).2 =
      "struct \x7b\n\tA int `json:\"a\" env:\"A\"`\n\tB int `json:\"b\" env:\"B\"`\n\x7d" :=
  ⟨rfl, (render_struct_lines pkgFile "" _ _ rfl).trans (by decide)⟩

/-- C2: for a type that is no pointer and has a name, `render` writes the bare
name and leaves the file as it is when the package path of the type is empty
or is that of the file; otherwise it writes the type as `%v` prints it, which
is `ident.Name` whenever the introspection source reports the qualified form
with the package identifier `ident`, and appends the package path of the type
to the import list. -/
theorem render_named (f : GoFile) (buf : String) (typ : ReflectType)
    (hk : typ.Kind ≠ Kind.Ptr) (hn : typ.Name ≠ "") :
    ((typ.PkgPath = "" ∨ typ.PkgPath = f.pkgPath) →
      render f buf typ = (f, buf ++ typ.Name)) ∧
    (¬(typ.PkgPath = "" ∨ typ.PkgPath = f.pkgPath) →
      (render f buf typ).1 = { f with Imports := f.Imports ++ [typ.PkgPath] } ∧
      (render f buf typ).2 = buf ++ typ.String ∧
      ∀ ident : String, typ.String = ident ++ "." ++ typ.Name →
        (render f buf typ).2 = buf ++ ident ++ "." ++ typ.Name) := by
  have key : render f buf typ = renderNamed f buf typ.hdr := by
    cases typ <;>
      simp_all [render, ReflectType.Kind, ReflectType.Name, ReflectType.hdr]
  rw [key]
  simp only [ReflectType.Name, ReflectType.PkgPath, ReflectType.String] at *
  constructor
  · intro h
    have : ¬(typ.hdr.PkgPath ≠ "" ∧ typ.hdr.PkgPath ≠ f.pkgPath) := by tauto
    simp [renderNamed, this]
  · intro h
    have : typ.hdr.PkgPath ≠ "" ∧ typ.hdr.PkgPath ≠ f.pkgPath := by tauto
    refine ⟨by simp [renderNamed, this], by simp [renderNamed, this], ?_⟩
    intro ident hid
    simp [renderNamed, this, hid, String.append_assoc]

/-- C2 at `GoFileTest`: the bare name in a file of its own package, the
qualified name and one more import in a file of `path/to/pkg`. -/
theorem render_named_witness :
    goFileTest.Kind ≠ Kind.Ptr ∧ goFileTest.Name ≠ "" ∧
    render reflect2goFile "" goFileTest = (reflect2goFile, "GoFileTest") ∧
    (render pathToPkgFile "" goFileTest).1.Imports =
      ["github.com/AdamSLevy/reflect2go"] ∧
    (render pathToPkgFile "" goFileTest).2 = "reflect2go.GoFileTest" :=
  ⟨by decide, by decide,
    (render_named reflect2goFile "" goFileTest (by decide) (by decide)).1 (by decide),
    congrArg GoFile.Imports
      ((render_named pathToPkgFile "" goFileTest (by decide) (by decide)).2 (by decide)).1,
    ((render_named pathToPkgFile "" goFileTest (by decide) (by decide)).2
      (by decide)).2.2 "reflect2go" (by decide)⟩

/-- The stars of `n` pointer levels. -/
theorem render_pointerTo_buf (f : GoFile) (buf : String) (typ : ReflectType)
    (hs : List rtype) :
    render f buf (pointerTo hs typ) =
      render f (buf ++ String.mk (List.replicate hs.length '*')) typ := by
  induction hs generalizing buf with
  | nil =>
    have : buf ++ String.mk [] = buf := String.append_empty buf
    simp [pointerTo, this]
  | cons h rest ih =>
    have hstar : buf ++ "*" ++ String.mk (List.replicate rest.length '*') =
        buf ++ String.mk (List.replicate (rest.length + 1) '*') := by
      simp [String.ext_iff, List.replicate_succ]
    have := ih (buf ++ "*")
    simp only [pointerTo] at this
    simp [pointerTo, render, this, hstar]

/-- C3: rendering `typ` under `n` pointer levels (`n` is the length of `hs`,
whatever the pointer types report as their names) writes `n` stars and then
the text that `render` writes for `typ`, and records the import paths that
rendering `typ` records. -/
theorem render_pointerTo (f : GoFile) (buf : String) (typ : ReflectType)
    (hs : List rtype) :
    render f buf (pointerTo hs typ) =
        (addImports f (recorded f typ),
          buf ++ String.mk (List.replicate hs.length '*') ++ rendered f typ) ∧
    rendered f (pointerTo hs typ) =
        String.mk (List.replicate hs.length '*') ++ rendered f typ ∧
    recorded f (pointerTo hs typ) = recorded f typ := by
  have h := fun g b => (render_pointerTo_buf g b typ hs).trans (render_frame typ g _)
  refine ⟨h f buf, ?_, ?_⟩
  · simp [rendered, h]
  · simp [recorded, h]

/-- C4: for an unnamed composite type `render` writes `[]` and the element of
a slice; `map[`, the key, `]` and the element of a map; the direction marker
and the element of a channel. -/
theorem render_composite (f : GoFile) (buf : String) (h : rtype)
    (key elem : ReflectType) (hn : h.Name = "") :
    (render f buf (.slice h elem)).2 = buf ++ "[]" ++ rendered f elem ∧
    (render f buf (.map h key elem)).2 =
      buf ++ "map[" ++ rendered f key ++ "]" ++ rendered f elem ∧
    (render f buf (.chan h RecvDir elem)).2 = buf ++ "<-chan " ++ rendered f elem ∧
    (render f buf (.chan h SendDir elem)).2 = buf ++ "chan<- " ++ rendered f elem ∧
    (render f buf (.chan h BothDir elem)).2 = buf ++ "chan " ++ rendered f elem := by
  simp [render, hn, render_frame, chanDirText, RecvDir, SendDir, BothDir,
    String.append_assoc]

/-- C4 at the types `[]*float64`, `map[string][]int` and `chan<- int`. -/
theorem render_composite_witness :
    (⟨"", "", "[]*float64"⟩ : rtype).Name = "" ∧
    (render pkgFile ""
      (.slice ⟨"", "", "[]*float64"⟩ (.ptr ⟨"", "", "*float64"⟩ float64Type))).2 =
      "[]*float64" ∧
    (render pkgFile ""
      (.map ⟨"", "", "map[string][]int"⟩ stringType
        (.slice ⟨"", "", "[]int"⟩ intType))).2 = "map[string][]int" ∧
    (render pkgFile "" (.chan ⟨"", "", "chan<- int"⟩ SendDir intType)).2 =
      "chan<- int" :=
  ⟨rfl,
    (render_composite pkgFile "" ⟨"", "", "[]*float64"⟩ stringType
      (.ptr ⟨"", "", "*float64"⟩ float64Type) rfl).1.trans (by decide),
    (render_composite pkgFile "" ⟨"", "", "map[string][]int"⟩ stringType
      (.slice ⟨"", "", "[]int"⟩ intType) rfl).2.1.trans (by decide),
    (render_composite pkgFile "" ⟨"", "", "chan<- int"⟩ stringType intType
      rfl).2.2.2.1.trans (by decide)⟩

/-! ## `DefineType` -/

@[simp] theorem returned_file (f : GoFile) (e : Option String) :
    (returned f e).file = f := rfl

@[simp] theorem returned_err (f : GoFile) (e : Option String) :
    (returned f e).err = e := rfl

@[simp] theorem returned_panics (f : GoFile) (e : Option String) :
    (returned f e).panics = none := rfl

@[simp] theorem panicked_file (f : GoFile) (v : String) : (panicked f v).file = f := rfl

@[simp] theorem panicked_err (f : GoFile) (v : String) : (panicked f v).err = none := rfl

@[simp] theorem panicked_panics (f : GoFile) (v : String) :
    (panicked f v).panics = some v := rfl

/-- An outcome without error and without panic is the return of its file. -/
theorem eq_returned_iff (r : Outcome) (g : GoFile) :
    r = returned g none ↔ r.file = g ∧ r.err = none ∧ r.panics = none := by
  cases r
  simp [returned]

theorem lookup_isSome_iff (es : List (String × typeDef)) (k : String) :
    (es.lookup k).isSome ↔ k ∈ es.map Prod.fst := by
  induction es with
  | nil => simp
  | cons e rest ih =>
    obtain ⟨k', v⟩ := e
    by_cases hk : k = k'
    · subst hk; simp [List.lookup]
    · have hb : (k == k') = false := by simpa using hk
      simp only [List.lookup, hb, List.map_cons, List.mem_cons, hk, false_or] at *
      exact ih

theorem mapGet_isSome_iff (m : TypeMap) (k : String) :
    (mapGet m k).isSome ↔ k ∈ mapKeys m := by
  cases m with
  | none => simp [mapGet, mapKeys]
  | some es => exact lookup_isSome_iff es k

theorem mapGet_eq_none_iff (m : TypeMap) (k : String) :
    mapGet m k = none ↔ k ∉ mapKeys m := by
  rw [← mapGet_isSome_iff]
  cases mapGet m k <;> simp

theorem lookup_append_of_none (m₁ m₂ : List (String × typeDef)) (k : String)
    (h : m₁.lookup k = none) : (m₁ ++ m₂).lookup k = m₂.lookup k := by
  induction m₁ with
  | nil => rfl
  | cons e rest ih =>
    obtain ⟨k', v⟩ := e
    by_cases hk : (k == k') = true
    · simp [List.lookup, hk] at h
    · simp only [Bool.not_eq_true] at hk
      simp only [List.lookup, hk, List.cons_append] at *
      exact ih h

theorem lookup_append_of_some (m₁ m₂ : List (String × typeDef)) (k : String)
    (v : typeDef) (h : m₁.lookup k = some v) : (m₁ ++ m₂).lookup k = some v := by
  induction m₁ with
  | nil => simp [List.lookup] at h
  | cons e rest ih =>
    obtain ⟨k', v'⟩ := e
    by_cases hk : (k == k') = true
    · simp only [List.lookup, hk, List.cons_append] at *
      exact h
    · simp only [Bool.not_eq_true] at hk
      simp only [List.lookup, hk, List.cons_append] at *
      exact ih h

theorem lookup_filter_self (m : List (String × typeDef)) (k : String) :
    (m.filter (fun e => e.1 ≠ k)).lookup k = none := by
  induction m with
  | nil => rfl
  | cons e rest ih =>
    obtain ⟨k', v⟩ := e
    rw [List.filter_cons]
    by_cases hk : k' = k
    · rw [if_neg (by simp [hk])]
      exact ih
    · rw [if_pos (by simp [hk])]
      have hb : (k == k') = false := by simpa using fun h => hk h.symm
      simp only [List.lookup, hb]
      exact ih

theorem lookup_filter_ne (m : List (String × typeDef)) (k k' : String) (hne : k' ≠ k) :
    (m.filter (fun e => e.1 ≠ k)).lookup k' = m.lookup k' := by
  induction m with
  | nil => rfl
  | cons e rest ih =>
    obtain ⟨k₀, v⟩ := e
    rw [List.filter_cons]
    by_cases hk : k₀ = k
    · rw [if_neg (by simp [hk])]
      have hb : (k' == k₀) = false := by simpa [hk] using hne
      simp only [List.lookup, hb]
      exact ih
    · rw [if_pos (by simp [hk])]
      by_cases hb : (k' == k₀) = true
      · simp only [List.lookup, hb]
      · simp only [Bool.not_eq_true] at hb
        simp only [List.lookup, hb]
        exact ih

theorem lookup_setEntry_self (es : List (String × typeDef)) (k : String) (v : typeDef) :
    (setEntry es k v).lookup k = some v := by
  simp only [setEntry]
  rw [lookup_append_of_none _ _ _ (lookup_filter_self es k)]
  simp [List.lookup]

theorem lookup_setEntry_ne (es : List (String × typeDef)) (k k' : String) (v : typeDef)
    (hne : k' ≠ k) : (setEntry es k v).lookup k' = es.lookup k' := by
  simp only [setEntry]
  cases h : es.lookup k' with
  | none =>
    rw [lookup_append_of_none _ _ _ ((lookup_filter_ne es k k' hne).trans h)]
    have hb : (k' == k) = false := by simpa using hne
    simp [List.lookup, hb]
  | some w =>
    exact lookup_append_of_some _ _ _ _ ((lookup_filter_ne es k k' hne).trans h)

/-- The read of the key just assigned in an allocated map. -/
theorem mapGet_mapSet_self (m : TypeMap) (k : String) (v : typeDef) (hm : m ≠ none) :
    mapGet (m.map (fun es => setEntry es k v)) k = some v := by
  cases m with
  | none => exact absurd rfl hm
  | some es => exact lookup_setEntry_self es k v

/-- The read of another key after an assignment. -/
theorem mapGet_mapSet_ne (m : TypeMap) (k k' : String) (v : typeDef)
    (hne : k' ≠ k) : mapGet (m.map (fun es => setEntry es k v)) k' = mapGet m k' := by
  cases m with
  | none => rfl
  | some es => exact lookup_setEntry_ne es k k' v hne

theorem mapSet_of_ne_none (m : TypeMap) (k : String) (v : typeDef) (hm : m ≠ none) :
    mapSet m k v = .ok (m.map (fun es => setEntry es k v)) := by
  cases m with
  | none => exact absurd rfl hm
  | some es => rfl

theorem getLast?_getD_of_ne_nil (l : List String) (a b : String) (h : l ≠ []) :
    l.getLast?.getD a = l.getLast?.getD b := by
  cases hl : l.getLast? with
  | none => exact absurd (List.getLast?_eq_none_iff.mp hl) h
  | some x => rfl

theorem foldl_Comment (cmts : List String) (d : typeDef) :
    (cmts.map Comment).foldl (fun d opt => opt d) d =
      { d with Comment := cmts.getLast?.getD d.Comment } := by
  induction cmts generalizing d with
  | nil => simp
  | cons c rest ih =>
    rw [List.map_cons, List.foldl_cons, ih]
    cases rest with
    | nil => simp [Comment]
    | cons c' rest' =>
      simp only [Comment, List.getLast?_cons_cons]
      rw [getLast?_getD_of_ne_nil (c' :: rest') c d.Comment (by simp)]

theorem DefineType_of_mem (f : GoFile) (name : String) (typ : ReflectType)
    (opts : List TypeOption) (h : name ∈ mapKeys f.Types) :
    f.DefineType name typ opts = returned f (some ("type already defined: " ++ name)) := by
  rw [← mapGet_isSome_iff] at h
  simp [GoFile.DefineType, h]

theorem DefineType_of_not_mem (f : GoFile) (name : String) (typ : ReflectType)
    (cmts : List String) (h : name ∉ mapKeys f.Types) (hm : f.Types ≠ none) :
    f.DefineType name typ (cmts.map Comment) =
      returned (withType f (recorded f typ) name
        { Name := name, Comment := cmts.getLast?.getD "",
          Definition := rendered f typ }) none := by
  have hget : (mapGet f.Types name).isSome = false := by
    rw [Bool.eq_false_iff, Ne, mapGet_isSome_iff]
    exact h
  have hm' : (addImports f (recorded f typ)).Types ≠ none := hm
  simp only [GoFile.DefineType, hget, foldl_Comment, render_frame,
    mapSet_of_ne_none _ _ _ hm']
  simp [addImports, withType]

/-- On the nil map, which has no key, `DefineType` renders the type and then
panics at the assignment to the map. -/
theorem DefineType_of_nil (f : GoFile) (name : String) (typ : ReflectType)
    (opts : List TypeOption) (hm : f.Types = none) :
    f.DefineType name typ opts =
      panicked (addImports f (recorded f typ)) "assignment to entry in nil map" := by
  have hm' : (addImports f (recorded f typ)).Types = none := hm
  simp [GoFile.DefineType, hm, mapGet, render_frame, mapSet, hm']

/-- Without an error, `DefineType` has appended to the imports what `render`
records, and it has panicked exactly when the map is nil. -/
theorem DefineType_of_not_mem_any (f : GoFile) (name : String) (typ : ReflectType)
    (opts : List TypeOption) (h : name ∉ mapKeys f.Types) :
    (f.DefineType name typ opts).2 = none ∧
    (f.DefineType name typ opts).1.Imports = f.Imports ++ recorded f typ ∧
    ((f.DefineType name typ opts).panics = none ↔ f.Types ≠ none) := by
  have hget : (mapGet f.Types name).isSome = false := by
    rw [Bool.eq_false_iff, Ne, mapGet_isSome_iff]
    exact h
  by_cases hm : f.Types = none
  · simp [DefineType_of_nil f name typ opts hm, hm]
  · have hm' : (addImports f (recorded f typ)).Types ≠ none := hm
    simp [GoFile.DefineType, hget, render_frame, mapSet_of_ne_none _ _ _ hm', hm]

/-- C5: `DefineType` returns an error exactly when the name is a key of the
type map, and then the file it leaves is the file it was given, with its type
map and its import list, whatever the type refers to. -/
theorem DefineType_error_iff (f : GoFile) (name : String) (typ : ReflectType)
    (opts : List TypeOption) :
    ((f.DefineType name typ opts).2 ≠ none ↔ name ∈ mapKeys f.Types) ∧
    ((f.DefineType name typ opts).2 ≠ none → (f.DefineType name typ opts).1 = f) := by
  by_cases h : name ∈ mapKeys f.Types
  · simp [DefineType_of_mem f name typ opts h, h]
  · simp [(DefineType_of_not_mem_any f name typ opts h).1, h]

/-- C5 on a second definition of `dup`, this time from `time.Time`: the error,
and the file with its first definition and without the import of `time`. -/
theorem DefineType_error_iff_witness :
    ((pkgFile.DefineType "dup" emptyStruct []).1.DefineType "dup" timeTime []).2 =
      some "type already defined: dup" ∧
    ((pkgFile.DefineType "dup" emptyStruct []).1.DefineType "dup" timeTime []).1 =
      (pkgFile.DefineType "dup" emptyStruct []).1 ∧
    (pkgFile.DefineType "dup" emptyStruct []).1.Imports = [] ∧
    mapGet (pkgFile.DefineType "dup" emptyStruct []).1.Types "dup" =
      some ⟨"", "dup", "struct \x7b\n\x7d"⟩ :=
  ⟨by decide,
    (DefineType_error_iff (pkgFile.DefineType "dup" emptyStruct []).1
      "dup" timeTime []).2 (by decide), by decide, by decide⟩

theorem renderFieldsOn_frame
    (call : GoFile → String → Nat → Option (GoFile × String))
    (fs : List (StructField Nat))
    (hcall : ∀ sf ∈ fs, ∀ f buf r, call f buf sf.Typ = some r →
      ∃ I T, r = (addImports f I, buf ++ T)) :
    ∀ f buf r, renderFieldsOn call f buf fs = some r →
      ∃ I T, r = (addImports f I, buf ++ T) := by
  induction fs with
  | nil =>
    intro f buf r h
    simp only [renderFieldsOn, Option.some.injEq] at h
    exact ⟨[], "", by simp [← h]⟩
  | cons sf rest ih =>
    intro f buf r h
    simp only [renderFieldsOn] at h
    cases hc : call f (buf ++ "\t" ++ (if sf.Anonymous then "" else sf.Name) ++ " ") sf.Typ with
    | none => simp [hc] at h
    | some r₁ =>
      simp only [hc] at h
      obtain ⟨I₁, T₁, h₁⟩ := hcall sf (List.mem_cons_self _ _) _ _ _ hc
      obtain ⟨I₂, T₂, h₂⟩ :=
        ih (fun sf' hsf' => hcall sf' (List.mem_cons_of_mem _ hsf')) _ _ _ h
      refine ⟨I₁ ++ I₂,
        "\t" ++ (if sf.Anonymous then "" else sf.Name) ++ " " ++ T₁ ++
          (if sf.Tag.length > 0 then " `" ++ sf.Tag ++ "`" else "") ++ "\n" ++ T₂, ?_⟩
      rw [h₂, h₁]
      by_cases ht : sf.Tag.length > 0 <;> simp [ht, String.append_assoc]

/-- A call of `render` on a type graph that returns has appended to the buffer
and to the import list, and has changed nothing else. -/
theorem renderOn_frame (g : TypeGraph) :
    ∀ (depth : Nat) (f : GoFile) (buf : String) (typ : Nat) (r : GoFile × String),
      renderOn g depth f buf typ = some r → ∃ I T, r = (addImports f I, buf ++ T) := by
  intro depth
  induction depth with
  | zero =>
    intro f buf typ r h
    simp [renderOn] at h
  | succ d ih =>
    intro f buf typ r h
    have hnamed : ∀ (h' : rtype) (r : GoFile × String),
        some (renderNamed f buf h') = some r → ∃ I T, r = (addImports f I, buf ++ T) := by
      intro h' r hr
      obtain ⟨I, T, hs⟩ := renderNamed_shape h' f.pkgPath
      exact ⟨I, T, by rw [← Option.some.inj hr, hs f buf rfl]⟩
    have hplain : ∀ (s : String) (r : GoFile × String),
        some (f, buf ++ s) = some r → ∃ I T, r = (addImports f I, buf ++ T) := by
      intro s r hr
      exact ⟨[], s, by rw [← Option.some.inj hr]; simp⟩
    unfold renderOn at h
    cases hg : g typ with
    | ptr h' e =>
      simp only [hg] at h
      obtain ⟨I, T, hr⟩ := ih _ _ _ _ h
      exact ⟨I, "*" ++ T, by rw [hr]; simp [String.append_assoc]⟩
    | slice h' e =>
      simp only [hg] at h
      by_cases hn : h'.Name ≠ ""
      · rw [if_pos hn] at h
        exact hnamed h' r h
      · rw [if_neg hn] at h
        obtain ⟨I, T, hr⟩ := ih _ _ _ _ h
        exact ⟨I, "[]" ++ T, by rw [hr]; simp [String.append_assoc]⟩
    | array h' n e =>
      simp only [hg] at h
      by_cases hn : h'.Name ≠ ""
      · rw [if_pos hn] at h
        exact hnamed h' r h
      · rw [if_neg hn] at h
        exact hplain _ r h
    | chan h' dir e =>
      simp only [hg] at h
      by_cases hn : h'.Name ≠ ""
      · rw [if_pos hn] at h
        exact hnamed h' r h
      · rw [if_neg hn] at h
        obtain ⟨I, T, hr⟩ := ih _ _ _ _ h
        exact ⟨I, chanDirText dir ++ T, by rw [hr]; simp [String.append_assoc]⟩
    | map h' k e =>
      simp only [hg] at h
      by_cases hn : h'.Name ≠ ""
      · rw [if_pos hn] at h
        exact hnamed h' r h
      · rw [if_neg hn] at h
        cases hk : renderOn g d f (buf ++ "map[") k with
        | none => simp [hk] at h
        | some r₁ =>
          simp only [hk] at h
          obtain ⟨I₁, T₁, h₁⟩ := ih _ _ _ _ hk
          obtain ⟨I₂, T₂, h₂⟩ := ih _ _ _ _ h
          refine ⟨I₁ ++ I₂, "map[" ++ T₁ ++ "]" ++ T₂, ?_⟩
          rw [h₂, h₁]
          simp [String.append_assoc]
    | struct h' fs =>
      simp only [hg] at h
      by_cases hn : h'.Name ≠ ""
      · rw [if_pos hn] at h
        exact hnamed h' r h
      · rw [if_neg hn] at h
        cases hf : renderFieldsOn (renderOn g d) f (buf ++ "struct \x7b\n") fs with
        | none => simp [hf] at h
        | some r₁ =>
          simp only [hf, Option.some.injEq] at h
          obtain ⟨I, T, h₁⟩ := renderFieldsOn_frame (renderOn g d) fs
            (fun sf _ f' buf' r' hr' => ih f' buf' sf.Typ r' hr') _ _ _ hf
          refine ⟨I, "struct \x7b\n" ++ T ++ "\x7d", ?_⟩
          rw [← h, h₁]
          simp [String.append_assoc]
    | other k h' =>
      simp only [hg] at h
      by_cases hn : h'.Name ≠ ""
      · rw [if_pos hn] at h
        exact hnamed h' r h
      · rw [if_neg hn] at h
        exact hplain _ r h

/-- C6, as the code has it: when the type map of the file is allocated, as
`NewGoFile` makes it, and the name is not yet a key, `DefineType` with the
options `Comment c` for the `c` of `cmts` returns without an error and without
a panic; the type map, still allocated, then holds under the name the entry
with that name, the last comment (none gives the empty one) and the text
`render` writes for the type in this file; the other keys read as before;
the list of imports is the old one followed by the paths recorded while
rendering; the other fields of the file are as before. The same holds on a
type graph whenever the call of `render` returns: `DefineType` then returns
the file with what `render` has appended to the imports and with the entry
stored. -/
theorem DefineType_success (f : GoFile) (name : String) (typ : ReflectType)
    (cmts : List String) (hnew : name ∉ mapKeys f.Types) (halloc : f.Types ≠ none) :
    (f.DefineType name typ (cmts.map Comment)).2 = none ∧
    (f.DefineType name typ (cmts.map Comment)).panics = none ∧
    mapGet (f.DefineType name typ (cmts.map Comment)).1.Types name =
      some { Name := name, Comment := cmts.getLast?.getD "",
             Definition := (render f "" typ).2 } ∧
    (render f "" typ).2 = rendered f typ ∧
    (∀ k, k ≠ name →
      mapGet (f.DefineType name typ (cmts.map Comment)).1.Types k = mapGet f.Types k) ∧
    (f.DefineType name typ (cmts.map Comment)).1.Imports = f.Imports ++ recorded f typ ∧
    (f.DefineType name typ (cmts.map Comment)).1.pkgPath = f.pkgPath ∧
    (f.DefineType name typ (cmts.map Comment)).1.PkgName = f.PkgName ∧
    (f.DefineType name typ (cmts.map Comment)).1.Preamble = f.Preamble ∧
    (f.DefineType name typ (cmts.map Comment)).1.PkgComment = f.PkgComment ∧
    (f.DefineType name typ (cmts.map Comment)).1.commentLineWrap = f.commentLineWrap ∧
    (f.DefineType name typ (cmts.map Comment)).1.wrapper = f.wrapper ∧
    (f.DefineType name typ (cmts.map Comment)).1.Types ≠ none ∧
    (∀ (g : TypeGraph) (depth n : Nat) (r : GoFile × String),
      renderOn g depth f "" n = some r →
      ∃ added, r.1 = addImports f added ∧
        f.DefineTypeOn g depth name n (cmts.map Comment) =
          some (returned (withType f added name
            { Name := name, Comment := cmts.getLast?.getD "", Definition := r.2 })
            none)) := by
  have hget : (mapGet f.Types name).isSome = false := by
    rw [Bool.eq_false_iff, Ne, mapGet_isSome_iff]
    exact hnew
  rw [DefineType_of_not_mem f name typ cmts hnew halloc]
  refine ⟨rfl, rfl, ?_, by simp [render_frame], ?_, rfl, rfl, rfl, rfl, rfl, rfl, rfl,
    ?_, ?_⟩
  · simp [withType, mapGet_mapSet_self _ _ _ halloc, render_frame]
  · intro k hk
    exact mapGet_mapSet_ne _ _ _ _ hk
  · obtain ⟨es, hes⟩ := Option.ne_none_iff_exists'.mp halloc
    simp [withType, hes]
  · intro g depth n r hr
    obtain ⟨I, T, hr'⟩ := renderOn_frame g depth f "" n r hr
    refine ⟨I, by rw [hr'], ?_⟩
    have hm' : (addImports f I).Types ≠ none := halloc
    simp only [GoFile.DefineTypeOn, hget, hr, foldl_Comment]
    rw [hr']
    simp only [mapSet_of_ne_none _ _ _ hm']
    simp [addImports, withType]

/-- C6 at the definition of `ExampleGoFile`, at one that records imports, and
on the type graph of `type S struct { next *S }` at the type `*S`, on which
`render` returns although the graph has a cycle. -/
theorem DefineType_success_witness :
    "UpdatedTags" ∉ mapKeys pkgFile.Types ∧ pkgFile.Types ≠ none ∧
    (pkgFile.DefineType "UpdatedTags" updatedTags ([].map Comment)).2 = none ∧
    (pkgFile.DefineType "UpdatedTags" updatedTags ([].map Comment)).panics = none ∧
    mapGet (pkgFile.DefineType "UpdatedTags" updatedTags ([].map Comment)).1.Types
        "UpdatedTags" =
      some ⟨"", "UpdatedTags",
        "struct \x7b\n\tA int `json:\"a\" env:\"A\"`\n\tB int `json:\"b\" env:\"B\"`\n\x7d"⟩ ∧
    (pkgFile.DefineType "T" pointerToTime (["T is a time."].map Comment)).1.Imports =
      pkgFile.Imports ++ ["time"] ∧
    mapGet (pkgFile.DefineType "T" pointerToTime (["T is a time."].map Comment)).1.Types
        "T" = some ⟨"T is a time.", "T", "*time.Time"⟩ ∧
    renderOn selfStruct 2 pkgFile "" 1 = some (addImports pkgFile ["main"], "*main.S") ∧
    pkgFile.DefineTypeOn selfStruct 2 "N" 1 ([].map Comment) =
      some (returned (withType pkgFile ["main"] "N" ⟨"", "N", "*main.S"⟩) none) :=
  ⟨by decide, by decide,
    (DefineType_success pkgFile "UpdatedTags" updatedTags [] (by decide) (by decide)).1,
    (DefineType_success pkgFile "UpdatedTags" updatedTags [] (by decide) (by decide)).2.1,
    (DefineType_success pkgFile "UpdatedTags" updatedTags [] (by decide)
      (by decide)).2.2.1.trans (by decide),
    (DefineType_success pkgFile "T" pointerToTime ["T is a time."] (by decide)
      (by decide)).2.2.2.2.2.1.trans (by decide),
    (DefineType_success pkgFile "T" pointerToTime ["T is a time."] (by decide)
      (by decide)).2.2.1.trans (by decide),
    rfl,
    by
      obtain ⟨added, h₁, h₂⟩ :=
        (DefineType_success pkgFile "N" intType [] (by decide)
          (by decide)).2.2.2.2.2.2.2.2.2.2.2.2.2 selfStruct 2 1
          (addImports pkgFile ["main"], "*main.S") rfl
      have hadd : added = ["main"] := by
        have h := congrArg GoFile.Imports h₁
        simp only [addImports_Imports] at h
        exact (List.append_cancel_left h).symm
      rw [hadd] at h₂
      exact h₂⟩

/-- C6 as the specification words it fails on the zero value `GoFile{}`, the
file that `NewGoFile` returns with an error: no name is a key of its nil map,
and `DefineType` renders the type and then panics at the assignment
`f.Types[name] = typDef`, so that it does not succeed and nothing is stored
under the name. It fails too on the type `P` of a declaration `type P *P`, on
which `render` does not return, whatever the depth allowed: `DefineType` then
does not return either. -/
theorem DefineType_success_counterexample :
    (NewGoFile "" []).1 = GoFile.zero ∧
    "T" ∉ mapKeys GoFile.zero.Types ∧
    GoFile.zero.DefineType "T" intType [] =
      panicked GoFile.zero "assignment to entry in nil map" ∧
    (GoFile.zero.DefineType "T" intType []).panics ≠ none ∧
    mapGet (GoFile.zero.DefineType "T" intType []).1.Types "T" = none ∧
    "X" ∉ mapKeys pkgFile.Types ∧ pkgFile.Types ≠ none ∧
    (∀ depth : Nat, pkgFile.DefineTypeOn selfPointer depth "X" 0 [] = none) := by
  refine ⟨by decide, by decide, by decide, by decide, by decide, by decide, by decide, ?_⟩
  intro depth
  have hnever : ∀ (d : Nat) (f : GoFile) (buf : String),
      renderOn selfPointer d f buf 0 = none := by
    intro d
    induction d with
    | zero => intro f buf; rfl
    | succ d ih =>
      intro f buf
      simp only [renderOn, selfPointer]
      exact ih f (buf ++ "*")
  have hget : (mapGet pkgFile.Types "X").isSome = false := by decide
  simp [GoFile.DefineTypeOn, hget, hnever]

/-! ## `NewGoFile` -/

theorem afterOptions_cons (opt : GoFileOption) (rest : List GoFileOption) (f : GoFile) :
    afterOptions f (opt :: rest) =
      if (opt f).2 = none ∧ (opt f).panics = none then afterOptions (opt f).1 rest
      else none := rfl

theorem afterOptions_cons_some (opt : GoFileOption) (rest : List GoFileOption)
    (f f' : GoFile) (h : afterOptions f (opt :: rest) = some f') :
    ((opt f).2 = none ∧ (opt f).panics = none) ∧ afterOptions (opt f).1 rest = some f' := by
  rw [afterOptions_cons] at h
  by_cases hopt : (opt f).2 = none ∧ (opt f).panics = none
  · rw [if_pos hopt] at h
    exact ⟨hopt, h⟩
  · rw [if_neg hopt] at h
    cases h

theorem applyOptions_cons_err (opt : GoFileOption) (rest : List GoFileOption)
    (gf : GoFile) (e : String) (h : (opt gf).err = some e) :
    applyOptions gf (opt :: rest) = (returned GoFile.zero (some e), 1) := by
  simp [applyOptions, h]

theorem applyOptions_cons_panics (opt : GoFileOption) (rest : List GoFileOption)
    (gf : GoFile) (v : String) (h₁ : (opt gf).err = none) (h₂ : (opt gf).panics = some v) :
    applyOptions gf (opt :: rest) = (panicked GoFile.zero v, 1) := by
  simp [applyOptions, h₁, h₂]

theorem applyOptions_cons_ok (opt : GoFileOption) (rest : List GoFileOption)
    (gf : GoFile) (h₁ : (opt gf).err = none) (h₂ : (opt gf).panics = none) :
    applyOptions gf (opt :: rest) =
      ((applyOptions (opt gf).file rest).1, (applyOptions (opt gf).file rest).2 + 1) := by
  simp [applyOptions, h₁, h₂]

theorem applyOptions_of_some (opts : List GoFileOption) (gf g : GoFile)
    (h : afterOptions gf opts = some g) :
    applyOptions gf opts = (returned g none, opts.length) := by
  induction opts generalizing gf with
  | nil => simp_all [afterOptions, applyOptions]
  | cons opt rest ih =>
    obtain ⟨⟨h₁, h₂⟩, h'⟩ := afterOptions_cons_some _ _ _ _ h
    rw [applyOptions_cons_ok _ _ _ h₁ h₂, ih _ h']
    rfl

theorem applyOptions_of_none (opts : List GoFileOption) (gf : GoFile)
    (h : afterOptions gf opts = none) :
    (applyOptions gf opts).1.1 = GoFile.zero ∧
    ((applyOptions gf opts).1.2 ≠ none ∨ (applyOptions gf opts).1.panics ≠ none) := by
  induction opts generalizing gf with
  | nil => simp [afterOptions] at h
  | cons opt rest ih =>
    cases he : (opt gf).err with
    | some e => simp [applyOptions_cons_err _ _ _ e he]
    | none =>
      cases hv : (opt gf).panics with
      | some v => simp [applyOptions_cons_panics _ _ _ v he hv]
      | none =>
        rw [afterOptions_cons, if_pos ⟨he, hv⟩] at h
        rw [applyOptions_cons_ok _ _ _ he hv]
        exact ih _ h

/-- The loop returns an error exactly when an option returns one on the file
that the options before it, each without error and without panic, have left;
and then it returns the zero `GoFile`. -/
theorem applyOptions_err_iff (opts : List GoFileOption) (gf : GoFile) :
    ((applyOptions gf opts).1.2 ≠ none ↔
      ∃ (i : Nat) (hi : i < opts.length) (g : GoFile),
        afterOptions gf (opts.take i) = some g ∧ (opts.get ⟨i, hi⟩ g).2 ≠ none) ∧
    ((applyOptions gf opts).1.2 ≠ none → (applyOptions gf opts).1.1 = GoFile.zero) := by
  induction opts generalizing gf with
  | nil => simp [applyOptions]
  | cons opt rest ih =>
    cases he : (opt gf).err with
    | some e =>
      rw [applyOptions_cons_err _ _ _ e he]
      refine ⟨⟨fun _ => ⟨0, by simp, gf, by simp [afterOptions], ?_⟩, fun _ => by simp⟩,
        fun _ => rfl⟩
      show (opt gf).err ≠ none
      rw [he]
      simp
    | none =>
      have hshift : (∃ (i : Nat) (hi : i < (opt :: rest).length) (g : GoFile),
            afterOptions gf ((opt :: rest).take i) = some g ∧
              ((opt :: rest).get ⟨i, hi⟩ g).2 ≠ none) →
          (opt gf).panics = none ∧
          ∃ (i : Nat) (hi : i < rest.length) (g : GoFile),
            afterOptions (opt gf).1 (rest.take i) = some g ∧
              (rest.get ⟨i, hi⟩ g).2 ≠ none := by
        rintro ⟨i, hi, g, h1, h2⟩
        cases i with
        | zero =>
          simp only [List.take_zero, afterOptions, Option.some.injEq] at h1
          subst h1
          exact absurd he (by simpa using h2)
        | succ j =>
          rw [List.take_succ_cons] at h1
          obtain ⟨⟨-, hv⟩, h1'⟩ := afterOptions_cons_some _ _ _ _ h1
          exact ⟨hv, j, by simpa using hi, g, h1', by simpa using h2⟩
      cases hv : (opt gf).panics with
      | some v =>
        rw [applyOptions_cons_panics _ _ _ v he hv]
        refine ⟨⟨fun h => absurd rfl h, fun h => ?_⟩, fun h => absurd rfl h⟩
        have := (hshift h).1
        rw [hv] at this
        cases this
      | none =>
        rw [applyOptions_cons_ok _ _ _ he hv]
        refine ⟨⟨fun h => ?_, fun h => ?_⟩, fun h => (ih _).2 h⟩
        · obtain ⟨i, hi, g, h1, h2⟩ := (ih _).1.mp h
          refine ⟨i + 1, by simpa using hi, g, ?_, by simpa using h2⟩
          rw [List.take_succ_cons, afterOptions_cons, if_pos ⟨he, hv⟩]
          exact h1
        · exact (ih _).1.mpr (hshift h).2

/-- C7: `NewGoFile` returns an error exactly when the package path is empty or
one of the options returns an error on the file that the options before it,
all without error, have left; with an error it returns the zero `GoFile`; and
for the empty package path it calls no option. -/
theorem NewGoFile_error_iff (pkgPath : String) (opts : List GoFileOption) :
    ((NewGoFile pkgPath opts).2 ≠ none ↔
      pkgPath = "" ∨
      ∃ (i : Nat) (hi : i < opts.length) (g : GoFile),
        afterOptions (newFile pkgPath) (opts.take i) = some g ∧
        (opts.get ⟨i, hi⟩ g).2 ≠ none) ∧
    ((NewGoFile pkgPath opts).2 ≠ none → (NewGoFile pkgPath opts).1 = GoFile.zero) ∧
    (pkgPath = "" → (NewGoFileCalls pkgPath opts).2 = 0) := by
  by_cases hp : pkgPath = ""
  · simp [NewGoFile, NewGoFileCalls, hp]
  · simp only [NewGoFile, NewGoFileCalls, hp, if_false, false_or, false_implies, and_true]
    exact applyOptions_err_iff opts (newFile pkgPath)

/-- C7 on the calls of `TestGoFile`: the empty path, with no option called,
and a name defined twice. -/
theorem NewGoFile_error_iff_witness :
    NewGoFile "" [PkgName "foo"] = returned GoFile.zero (some "package path is empty") ∧
    (NewGoFile "" [PkgName "foo"]).1 = GoFile.zero ∧
    (NewGoFileCalls "" [PkgName "foo"]).2 = 0 ∧
    NewGoFile "pkg"
        [DefineType "dup" emptyStruct [],
         DefineType "dup" emptyStruct []] =
      returned GoFile.zero (some "type already defined: dup") :=
  ⟨by decide, (NewGoFile_error_iff "" [PkgName "foo"]).2.1 (by decide),
    (NewGoFile_error_iff "" [PkgName "foo"]).2.2 rfl, by decide⟩


theorem pathBase_eq_lastSegment (p : String) (hp : p ≠ "")
    (hlast : p.toList.getLast? ≠ some '/') : pathBase p = lastSegment p := by
  have hne : p.toList ≠ [] := by
    intro h
    apply hp
    cases p
    simp_all [String.toList]
  cases hr : p.toList.reverse with
  | nil => simp_all
  | cons c r =>
    have hc : c ≠ '/' := by
      intro h
      apply hlast
      rw [← List.head?_reverse, hr, h]
      rfl
    have hd : List.dropWhile (fun c => decide (c = '/')) (c :: r) = c :: r := by
      simp [List.dropWhile, hc]
    have ht : List.takeWhile (fun c => decide (c ≠ '/')) (c :: r) =
        c :: List.takeWhile (fun c => decide (c ≠ '/')) r := by
      simp [List.takeWhile, hc]
    unfold pathBase lastSegment
    rw [if_neg hp]
    simp only [hr, hd, List.reverse_reverse, ht]
    rw [if_neg (by simp)]

theorem afterOptions_keeps (opts : List GoFileOption) (gf g : GoFile)
    (hk : ∀ o ∈ opts, keepsPkgName o) (h : afterOptions gf opts = some g) :
    g.PkgName = gf.PkgName := by
  induction opts generalizing gf with
  | nil => simp_all [afterOptions]
  | cons opt rest ih =>
    obtain ⟨-, h'⟩ := afterOptions_cons_some _ _ _ _ h
    rw [ih _ (fun o ho => hk o (List.mem_cons_of_mem _ ho)) h']
    exact hk opt (List.mem_cons_self _ _) gf

theorem afterOptions_append (pre post : List GoFileOption) (gf : GoFile) :
    afterOptions gf (pre ++ post) = (afterOptions gf pre).bind (fun g => afterOptions g post) := by
  induction pre generalizing gf with
  | nil => simp [afterOptions]
  | cons opt rest ih =>
    by_cases hopt : (opt gf).2 = none ∧ (opt gf).panics = none
    · simp only [List.cons_append, afterOptions_cons, if_pos hopt, ih]
    · simp only [List.cons_append, afterOptions_cons, if_neg hopt, Option.none_bind]

theorem NewGoFile_eq_ok_iff (p : String) (opts : List GoFileOption) (g : GoFile) (hp : p ≠ "") :
    NewGoFile p opts = returned g none ↔ afterOptions (newFile p) opts = some g := by
  simp only [NewGoFile, NewGoFileCalls, hp, if_false]
  cases h : afterOptions (newFile p) opts with
  | none =>
    have := applyOptions_of_none opts _ h
    rw [eq_returned_iff]
    simp only [reduceCtorEq, iff_false, not_and]
    intro _ h2 h3
    rcases this.2 with h4 | h4
    · exact h4 h2
    · exact h4 h3
  | some g' =>
    rw [applyOptions_of_some opts _ g' h, eq_returned_iff]
    simp

theorem DefineType_keeps_fields (g : GoFile) (name : String) (typ : ReflectType)
    (opts : List TypeOption) :
    (g.DefineType name typ opts).1.pkgPath = g.pkgPath ∧
    (g.DefineType name typ opts).1.wrapper = g.wrapper ∧
    (g.DefineType name typ opts).1.commentLineWrap = g.commentLineWrap ∧
    (g.DefineType name typ opts).1.Preamble = g.Preamble ∧
    (g.DefineType name typ opts).1.PkgComment = g.PkgComment ∧
    (g.DefineType name typ opts).1.PkgName = g.PkgName := by
  simp only [GoFile.DefineType]
  split
  · simp
  · split <;> simp [render_frame, addImports]

theorem keepsPkgName_options (c : String) (n : Int) (name : String) (typ : ReflectType)
    (opts : List TypeOption) :
    keepsPkgName (PkgComment c) ∧ keepsPkgName (PreambleComment c) ∧
    keepsPkgName (CommentLineWrap n) ∧ keepsPkgName (DefineType name typ opts) :=
  ⟨fun _ => rfl, fun _ => rfl, fun _ => rfl,
    fun g => (DefineType_keeps_fields g name typ opts).2.2.2.2.2⟩

/-- C8, as the code has it: for a non-empty package path, a file created with
options that all keep the package name has the package name `path.Base` of the
path, which is the last slash-separated segment when the path does not end in
a slash; and a file created with `PkgName n` followed only by options that
keep the package name has the package name `n`. -/
theorem NewGoFile_PkgName (pkgPath : String) (hp : pkgPath ≠ "") :
    (∀ (opts : List GoFileOption) (g : GoFile), (∀ o ∈ opts, keepsPkgName o) →
      NewGoFile pkgPath opts = returned g none → g.PkgName = pathBase pkgPath) ∧
    (pkgPath.toList.getLast? ≠ some '/' → pathBase pkgPath = lastSegment pkgPath) ∧
    (∀ (pre post : List GoFileOption) (n : String) (g : GoFile),
      (∀ o ∈ post, keepsPkgName o) →
      NewGoFile pkgPath (pre ++ PkgName n :: post) = returned g none → g.PkgName = n) := by
  refine ⟨fun opts g hk h => ?_, pathBase_eq_lastSegment pkgPath hp,
    fun pre post n g hk h => ?_⟩
  · rw [NewGoFile_eq_ok_iff _ _ _ hp] at h
    exact afterOptions_keeps opts _ g hk h
  · rw [NewGoFile_eq_ok_iff _ _ _ hp, afterOptions_append] at h
    cases hpre : afterOptions (newFile pkgPath) pre with
    | none => simp [hpre] at h
    | some g₁ =>
      simp only [hpre, Option.some_bind] at h
      obtain ⟨-, h'⟩ := afterOptions_cons_some _ _ _ _ h
      exact afterOptions_keeps post _ g hk h'

/-- C8 on the files of the tests: `path/to/pkg` gives the package `pkg`, and
with `PkgName("foo")` before the two comment options the package `foo`. -/
theorem NewGoFile_PkgName_witness :
    "path/to/pkg" ≠ "" ∧
    NewGoFile "path/to/pkg" [] = returned (newFile "path/to/pkg") none ∧
    (newFile "path/to/pkg").PkgName = "pkg" ∧
    lastSegment "path/to/pkg" = "pkg" ∧
    NewGoFile "path/to/pkg"
      ([] ++ PkgName "foo" :: [PreambleComment "LICENSE GOES HERE",
        PkgComment "Package foo defines things."]) =
      returned (NewGoFile "path/to/pkg"
        ([] ++ PkgName "foo" :: [PreambleComment "LICENSE GOES HERE",
          PkgComment "Package foo defines things."])).1 none ∧
    (NewGoFile "path/to/pkg"
      ([] ++ PkgName "foo" :: [PreambleComment "LICENSE GOES HERE",
        PkgComment "Package foo defines things."])).1.PkgName = "foo" :=
  ⟨by decide, by decide,
    ((NewGoFile_PkgName "path/to/pkg" (by decide)).1 [] _ (by simp) (by decide)).trans
      (by decide),
    ((NewGoFile_PkgName "path/to/pkg" (by decide)).2.1 (by decide)).symm.trans (by decide),
    by decide,
    (NewGoFile_PkgName "path/to/pkg" (by decide)).2.2 []
      [PreambleComment "LICENSE GOES HERE", PkgComment "Package foo defines things."]
      "foo" _
      (by
        intro o ho
        simp only [List.mem_cons, List.mem_singleton, List.not_mem_nil, or_false] at ho
        rcases ho with rfl | rfl
        · exact (keepsPkgName_options "LICENSE GOES HERE" 0 "" intType []).2.1
        · exact (keepsPkgName_options "Package foo defines things." 0 "" intType []).1)
      (by decide)⟩

/-- C8 as the specification words it fails on the path `/`: `NewGoFile`
succeeds and the package name is `/`, which `path.Base` gives for a path of
slashes only, while the last slash-separated segment is empty. -/
theorem NewGoFile_PkgName_counterexample :
    "/" ≠ "" ∧ (NewGoFile "/" []).2 = none ∧ (NewGoFile "/" []).panics = none ∧
    (NewGoFile "/" []).1.PkgName = "/" ∧
    lastSegment "/" = "" ∧ (NewGoFile "/" []).1.PkgName ≠ lastSegment "/" := by
  decide

/-! ## The order of the declarations -/

theorem stringLE_iff (a b : String) : stringLE a b ↔ a ≤ b :=
  String.le_iff_toList_le.symm

theorem stringLE_total : IsTotal String stringLE :=
  ⟨fun a b => by simpa [stringLE_iff] using le_total a b⟩

theorem stringLE_trans : IsTrans String stringLE :=
  ⟨fun a b c hab hbc => by
    rw [stringLE_iff] at *
    exact le_trans hab hbc⟩

theorem stringLE_antisymm : IsAntisymm String stringLE :=
  ⟨fun a b hab hba => by
    rw [stringLE_iff] at *
    exact le_antisymm hab hba⟩

theorem insertionSort_sorted_le (l : List String) :
    List.Sorted (fun a b => a ≤ b) (l.insertionSort stringLE) := by
  haveI := stringLE_total
  haveI := stringLE_trans
  exact (List.sorted_insertionSort stringLE l).imp (fun h => (stringLE_iff _ _).mp h)

theorem insertionSort_eq_of_perm (l₁ l₂ : List String) (h : l₁.Perm l₂) :
    l₁.insertionSort stringLE = l₂.insertionSort stringLE := by
  haveI := stringLE_total
  haveI := stringLE_trans
  haveI := stringLE_antisymm
  exact List.eq_of_perm_of_sorted
    (((List.perm_insertionSort stringLE l₁).trans h).trans
      (List.perm_insertionSort stringLE l₂).symm)
    (List.sorted_insertionSort stringLE l₁) (List.sorted_insertionSort stringLE l₂)

theorem sortedKeys_sorted (m : TypeMap) :
    List.Sorted (fun a b => a < b) (sortedKeys m) := by
  apply List.Sorted.lt_of_le (insertionSort_sorted_le _)
  exact (List.perm_insertionSort stringLE _).nodup_iff.mpr (List.nodup_dedup _)

theorem mem_sortedKeys (m : TypeMap) (k : String) :
    k ∈ sortedKeys m ↔ k ∈ mapKeys m := by
  simp [sortedKeys, (List.perm_insertionSort stringLE _).mem_iff]

theorem sortedKeys_congr (m₁ m₂ : TypeMap)
    (h : ∀ k, mapGet m₁ k = mapGet m₂ k) : sortedKeys m₁ = sortedKeys m₂ := by
  apply insertionSort_eq_of_perm
  rw [List.perm_ext_iff_of_nodup (List.nodup_dedup _) (List.nodup_dedup _)]
  intro k
  rw [List.mem_dedup, List.mem_dedup, ← mapGet_isSome_iff, ← mapGet_isSome_iff, h]

theorem rangeTypes_congr (m₁ m₂ : TypeMap)
    (h : ∀ k, mapGet m₁ k = mapGet m₂ k) : rangeTypes m₁ = rangeTypes m₂ := by
  have hf : (fun k => (mapGet m₁ k).map (fun v => (k, v))) =
      (fun k => (mapGet m₂ k).map (fun v => (k, v))) := by
    funext k
    rw [h]
  simp only [rangeTypes, sortedKeys_congr m₁ m₂ h, hf]

theorem rangeTypes_keys (m : TypeMap) :
    (rangeTypes m).map Prod.fst = sortedKeys m := by
  have hall : ∀ k ∈ sortedKeys m, (mapGet m k).isSome := fun k hk =>
    (mapGet_isSome_iff m k).mpr ((mem_sortedKeys m k).mp hk)
  unfold rangeTypes
  generalize sortedKeys m = l at hall
  induction l with
  | nil => rfl
  | cons k rest ih =>
    have hk := hall k (List.mem_cons_self _ _)
    obtain ⟨v, hv⟩ := Option.isSome_iff_exists.mp hk
    simp only [List.filterMap_cons, hv, Option.map_some', List.map_cons]
    rw [ih (fun k' hk' => hall k' (List.mem_cons_of_mem _ hk'))]

theorem mem_rangeTypes (m : TypeMap) (e : String × typeDef) :
    e ∈ rangeTypes m ↔ mapGet m e.1 = some e.2 := by
  obtain ⟨k, v⟩ := e
  simp only [rangeTypes, List.mem_filterMap, Option.map_eq_some']
  constructor
  · rintro ⟨k', _, v', hv', heq⟩
    cases heq
    exact hv'
  · intro h
    exact ⟨k, (mem_sortedKeys m k).mpr ((mapGet_isSome_iff m k).mp (by simp [h])), v, h, rfl⟩

theorem afterOptions_register_cons (f f' : GoFile) (r : Registration)
    (rest : List Registration)
    (h : afterOptions f ((r :: rest).map register) = some f') :
    r.1 ∉ mapKeys f.Types ∧ f.Types ≠ none ∧
    afterOptions (withType f (recorded f r.2.1) r.1 (entryOf f r))
      (rest.map register) = some f' := by
  rw [List.map_cons] at h
  obtain ⟨⟨he, hv⟩, h'⟩ := afterOptions_cons_some _ _ _ _ h
  simp only [register, DefineType] at he hv h'
  by_cases hk : r.1 ∈ mapKeys f.Types
  · simp [DefineType_of_mem _ _ _ _ hk] at he
  · have hm : f.Types ≠ none :=
      (DefineType_of_not_mem_any f r.1 r.2.1 _ hk).2.2.mp hv
    refine ⟨hk, hm, ?_⟩
    rw [DefineType_of_not_mem _ _ _ _ hk hm] at h'
    exact h'

theorem entryOf_withType (f : GoFile) (paths : List String) (k : String) (v : typeDef)
    (r : Registration) : entryOf (withType f paths k v) r = entryOf f r := by
  simp only [entryOf]
  rw [(rendered_recorded_congr r.2.1 (withType f paths k v) f rfl).1]

theorem afterOptions_register (regs : List Registration) (f f' : GoFile)
    (h : afterOptions f (regs.map register) = some f') :
    (f'.pkgPath = f.pkgPath ∧ f'.wrapper = f.wrapper ∧
      f'.commentLineWrap = f.commentLineWrap) ∧
    ∀ k v, mapGet f'.Types k = some v ↔
      (mapGet f.Types k = some v ∨ ∃ r ∈ regs, r.1 = k ∧ v = entryOf f r) := by
  induction regs generalizing f with
  | nil =>
    simp only [List.map_nil, afterOptions, Option.some.injEq] at h
    subst h
    simp
  | cons r rest ih =>
    obtain ⟨hk, hm, h'⟩ := afterOptions_register_cons f f' r rest h
    obtain ⟨hfix, hmap⟩ := ih _ h'
    refine ⟨hfix, fun k v => ?_⟩
    rw [hmap]
    have hT : (withType f (recorded f r.2.1) r.1 (entryOf f r)).Types =
        f.Types.map (fun es => setEntry es r.1 (entryOf f r)) := rfl
    simp only [entryOf_withType, hT, List.mem_cons, exists_eq_or_imp]
    by_cases hkr : k = r.1
    · subst hkr
      have hnone : mapGet f.Types r.1 = none := (mapGet_eq_none_iff _ _).mpr hk
      simp only [mapGet_mapSet_self _ _ _ hm, hnone, Option.some.injEq, true_and, false_or]
      constructor
      · rintro (h1 | h1)
        · exact Or.inr (Or.inl h1.symm)
        · exact Or.inr (Or.inr h1)
      · rintro (h1 | h1 | h1)
        · cases h1
        · exact Or.inl h1.symm
        · exact Or.inr h1
    · have hne : ¬ r.1 = k := fun h => hkr h.symm
      simp only [mapGet_mapSet_ne _ _ _ _ hkr, hne, false_and, false_or]

theorem mem_mapKeys_mapSet (m : TypeMap) (k k' : String) (v : typeDef) (hm : m ≠ none) :
    k' ∈ mapKeys (m.map (fun es => setEntry es k v)) ↔ k' = k ∨ k' ∈ mapKeys m := by
  rw [← mapGet_isSome_iff, ← mapGet_isSome_iff]
  by_cases h : k' = k
  · subst h
    simp [mapGet_mapSet_self _ _ _ hm]
  · simp [mapGet_mapSet_ne _ _ _ _ h, h]

theorem afterOptions_register_nodup (regs : List Registration) (f f' : GoFile)
    (h : afterOptions f (regs.map register) = some f') :
    (regs.map Prod.fst).Nodup ∧ ∀ r ∈ regs, r.1 ∉ mapKeys f.Types := by
  induction regs generalizing f with
  | nil => simp
  | cons r rest ih =>
    obtain ⟨hk, hm, h'⟩ := afterOptions_register_cons f f' r rest h
    obtain ⟨hnd, hdisj⟩ := ih _ h'
    have hT : (withType f (recorded f r.2.1) r.1 (entryOf f r)).Types =
        f.Types.map (fun es => setEntry es r.1 (entryOf f r)) := rfl
    simp only [hT, mem_mapKeys_mapSet _ _ _ _ hm, not_or] at hdisj
    refine ⟨?_, ?_⟩
    · rw [List.map_cons, List.nodup_cons]
      refine ⟨?_, hnd⟩
      intro hmem
      obtain ⟨r', hr', heq⟩ := List.mem_map.mp hmem
      exact (hdisj r' hr').1 heq
    · intro r' hr'
      rcases List.mem_cons.mp hr' with rfl | hr'
      · exact hk
      · exact (hdisj r' hr').2

theorem NewGoFile_ok_ne_empty (p : String) (opts : List GoFileOption) (g : GoFile)
    (h : NewGoFile p opts = returned g none) : p ≠ "" := by
  intro hp
  have := congrArg Outcome.err h
  simp [NewGoFile, NewGoFileCalls, hp] at this

theorem registered_types (pkgPath : String) (regs : List Registration) (f : GoFile)
    (h : NewGoFile pkgPath (regs.map register) = returned f none) :
    (f.wrapper = newCommentWrapper ∧ f.commentLineWrap = DefaultCommentLineWrap) ∧
    (regs.map Prod.fst).Nodup ∧
    ∀ k v, mapGet f.Types k = some v ↔
      ∃ r ∈ regs, r.1 = k ∧ v = entryOf (newFile pkgPath) r := by
  have hp := NewGoFile_ok_ne_empty _ _ _ h
  rw [NewGoFile_eq_ok_iff _ _ _ hp] at h
  obtain ⟨⟨_, hw, hc⟩, hmap⟩ := afterOptions_register regs _ f h
  refine ⟨⟨hw, hc⟩, (afterOptions_register_nodup regs _ f h).1, fun k v => ?_⟩
  rw [hmap]
  simp [newFile, mapGet]

theorem sortByName_perm (regs : List Registration) : (sortByName regs).Perm regs :=
  List.perm_insertionSort _ regs

theorem sortByName_sorted (regs : List Registration) (hnd : (regs.map Prod.fst).Nodup) :
    List.Sorted (fun a b => a < b) ((sortByName regs).map Prod.fst) := by
  have htot : IsTotal Registration (fun a b => stringLE a.1 b.1) :=
    ⟨fun a b => stringLE_total.total a.1 b.1⟩
  have htrans : IsTrans Registration (fun a b => stringLE a.1 b.1) :=
    ⟨fun a b c hab hbc => stringLE_trans.trans a.1 b.1 c.1 hab hbc⟩
  have hs : List.Sorted (fun a b : Registration => stringLE a.1 b.1) (sortByName regs) :=
    List.sorted_insertionSort _ regs
  have hle : List.Sorted (fun a b => a ≤ b) ((sortByName regs).map Prod.fst) := by
    rw [List.Sorted, List.pairwise_map]
    exact hs.imp (fun h => (stringLE_iff _ _).mp h)
  exact hle.lt_of_le (((sortByName_perm regs).map Prod.fst).nodup_iff.mpr hnd)

/-- The template visits the types of a file made from registrations in the
ascending order of the registered names, each with the entry that its
registration stores. -/
theorem rangeTypes_registered (pkgPath : String) (regs : List Registration) (f : GoFile)
    (h : NewGoFile pkgPath (regs.map register) = returned f none) :
    rangeTypes f.Types =
      (sortByName regs).map (fun r => (r.1, entryOf (newFile pkgPath) r)) := by
  obtain ⟨-, hnd, hmap⟩ := registered_types pkgPath regs f h
  have hkeys : sortedKeys f.Types = (sortByName regs).map Prod.fst := by
    apply List.eq_of_perm_of_sorted _ (sortedKeys_sorted _) (sortByName_sorted regs hnd)
    rw [List.perm_ext_iff_of_nodup (sortedKeys_sorted _).nodup
      (sortByName_sorted regs hnd).nodup]
    intro k
    rw [mem_sortedKeys, ← mapGet_isSome_iff, Option.isSome_iff_exists,
      ((sortByName_perm regs).map Prod.fst).mem_iff, List.mem_map]
    constructor
    · rintro ⟨v, hv⟩
      obtain ⟨r, hr, hk, -⟩ := (hmap k v).mp hv
      exact ⟨r, hr, hk⟩
    · rintro ⟨r, hr, hk⟩
      exact ⟨_, (hmap k _).mpr ⟨r, hr, hk, rfl⟩⟩
  have hall : ∀ r ∈ sortByName regs,
      mapGet f.Types r.1 = some (entryOf (newFile pkgPath) r) := fun r hr =>
    (hmap _ _).mpr ⟨r, (sortByName_perm regs).mem_iff.mp hr, rfl, rfl⟩
  unfold rangeTypes
  rw [hkeys]
  generalize sortByName regs = l at hall
  induction l with
  | nil => rfl
  | cons r rest ih =>
    simp only [List.map_cons, List.filterMap_cons, hall r (List.mem_cons_self _ _),
      Option.map_some']
    rw [ih (fun r' hr' => hall r' (List.mem_cons_of_mem _ hr'))]

/-- A call of `DefineType` with `Comment` options keeps every entry of the type
map under the name that the entry has. -/
theorem DefineType_keeps_names (f : GoFile) (name : String) (typ : ReflectType)
    (cmts : List String) (hinv : ∀ k v, mapGet f.Types k = some v → v.Name = k) :
    ∀ k v, mapGet (f.DefineType name typ (cmts.map Comment)).1.Types k = some v →
      v.Name = k := by
  intro k v h
  by_cases hk : name ∈ mapKeys f.Types
  · rw [DefineType_of_mem f name typ _ hk] at h
    exact hinv k v h
  · by_cases hm : f.Types = none
    · rw [DefineType_of_nil f name typ _ hm] at h
      have hT : (addImports f (recorded f typ)).Types = none := hm
      simp [hT, mapGet] at h
    · rw [DefineType_of_not_mem f name typ cmts hk hm] at h
      have hT : (withType f (recorded f typ) name
          { Name := name, Comment := cmts.getLast?.getD "",
            Definition := rendered f typ }).Types =
          f.Types.map (fun es => setEntry es name
            { Name := name, Comment := cmts.getLast?.getD "",
              Definition := rendered f typ }) := rfl
      rw [returned_file, hT] at h
      by_cases hkn : k = name
      · subst hkn
        rw [mapGet_mapSet_self _ _ _ hm, Option.some.injEq] at h
        rw [← h]
      · rw [mapGet_mapSet_ne _ _ _ _ hkn] at h
        exact hinv k v h

/-- C9: for every file the template visits the type map in ascending order of
its keys and writes, for each entry in that order, the wrapped comment if
there is one and the line `type`, the name and the definition; these
declarations are the end of the text that `Render` hands to the formatter.
The keys are the names of the declarations in every file whose entries
`DefineType` has stored, so that the names are written in ascending order.
For a file made by `NewGoFile` from registrations, in whatever order, the
declarations written are those of the registrations in ascending order of
their names, each with its comment and the text `render` writes for its type;
so two files made from the same registrations in two orders get the same
declarations in the same order. -/
theorem Render_types_sorted (x : Collaborators) (pkgPath : String)
    (regs₁ regs₂ : List Registration) (f₁ f₂ : GoFile) (hperm : regs₁.Perm regs₂)
    (h₁ : NewGoFile pkgPath (regs₁.map register) = returned f₁ none)
    (h₂ : NewGoFile pkgPath (regs₂.map register) = returned f₂ none) :
    (∀ f : GoFile,
      List.Sorted (fun a b => a < b) ((rangeTypes f.Types).map Prod.fst)) ∧
    (∀ f : GoFile,
      tmplTypes x f =
        String.join ((rangeTypes f.Types).map (fun e =>
          (if e.2.Comment ≠ "" then "\n" ++ x.Wrap f.wrapper e.2.Comment f.commentLineWrap
            else "") ++ "\ntype " ++ e.2.Name ++ " " ++ e.2.Definition))) ∧
    (∀ f : GoFile,
      f.Render x =
        x.Source (tmplComments x f ++ tmplPackage f ++ tmplImports x f ++
          String.join ((rangeTypes f.Types).map (fun e =>
            (if e.2.Comment ≠ "" then
                "\n" ++ x.Wrap f.wrapper e.2.Comment f.commentLineWrap
              else "") ++ "\ntype " ++ e.2.Name ++ " " ++ e.2.Definition)) ++ "\n")) ∧
    (∀ f : GoFile, (∀ k v, mapGet f.Types k = some v → v.Name = k) →
      List.Sorted (fun a b => a < b) ((rangeTypes f.Types).map (fun e => e.2.Name)) ∧
      ∀ (name : String) (typ : ReflectType) (cmts : List String) (k : String)
        (v : typeDef),
        mapGet (f.DefineType name typ (cmts.map Comment)).1.Types k = some v →
          v.Name = k) ∧
    List.Sorted (fun a b => a < b) ((sortByName regs₁).map Prod.fst) ∧
    (sortByName regs₁).Perm regs₁ ∧
    (rangeTypes f₁.Types).map (fun e => e.2.Name) = (sortByName regs₁).map Prod.fst ∧
    tmplTypes x f₁ =
      String.join ((sortByName regs₁).map (fun r =>
        (if r.2.2.getLast?.getD "" ≠ "" then
            "\n" ++ x.Wrap newCommentWrapper (r.2.2.getLast?.getD "") DefaultCommentLineWrap
          else "") ++ "\ntype " ++ r.1 ++ " " ++ rendered (newFile pkgPath) r.2.1)) ∧
    sortByName regs₁ = sortByName regs₂ ∧
    rangeTypes f₁.Types = rangeTypes f₂.Types ∧
    tmplTypes x f₁ = tmplTypes x f₂ := by
  have hkeys : ∀ f : GoFile,
      List.Sorted (fun a b => a < b) ((rangeTypes f.Types).map Prod.fst) := by
    intro f
    rw [rangeTypes_keys]
    exact sortedKeys_sorted _
  have htext : ∀ f : GoFile,
      tmplTypes x f =
        String.join ((rangeTypes f.Types).map (fun e =>
          (if e.2.Comment ≠ "" then "\n" ++ x.Wrap f.wrapper e.2.Comment f.commentLineWrap
            else "") ++ "\ntype " ++ e.2.Name ++ " " ++ e.2.Definition)) := fun f => rfl
  obtain ⟨⟨hw₁, hc₁⟩, hnd₁, -⟩ := registered_types pkgPath regs₁ f₁ h₁
  obtain ⟨⟨hw₂, hc₂⟩, hnd₂, -⟩ := registered_types pkgPath regs₂ f₂ h₂
  have hr₁ := rangeTypes_registered pkgPath regs₁ f₁ h₁
  have hr₂ := rangeTypes_registered pkgPath regs₂ f₂ h₂
  have hsort : sortByName regs₁ = sortByName regs₂ := by
    have hinj : ∀ l : List Registration, (l.map Prod.fst).Nodup →
        ∀ a ∈ l, ∀ b ∈ l, a.1 = b.1 → a = b := fun l hl a ha b hb hab =>
      List.inj_on_of_nodup_map hl ha hb hab
    have hp : (sortByName regs₁).Perm (sortByName regs₂) :=
      ((sortByName_perm regs₁).trans hperm).trans (sortByName_perm regs₂).symm
    have hs₁ := sortByName_sorted regs₁ hnd₁
    have hs₂ := sortByName_sorted regs₂ hnd₂
    have hfst : (sortByName regs₁).map Prod.fst = (sortByName regs₂).map Prod.fst :=
      List.eq_of_perm_of_sorted (hp.map Prod.fst) hs₁ hs₂
    apply List.ext_get
    · simpa using congrArg List.length hfst
    · intro n hn₁ hn₂
      have hmem₁ : (sortByName regs₁).get ⟨n, hn₁⟩ ∈ sortByName regs₁ :=
        List.get_mem _ _ _
      have hmem₂ : (sortByName regs₂).get ⟨n, hn₂⟩ ∈ sortByName regs₁ :=
        hp.mem_iff.mpr (List.get_mem _ _ _)
      apply hinj (sortByName regs₁) hs₁.nodup _ hmem₁ _ hmem₂
      have h1 : ∀ (l₁ l₂ : List String) (h : l₁ = l₂) (a : n < l₁.length)
          (b : n < l₂.length), l₁.get ⟨n, a⟩ = l₂.get ⟨n, b⟩ := by
        intro l₁ l₂ h a b
        subst h
        rfl
      have h2 := h1 _ _ hfst (by simpa using hn₁) (by simpa using hn₂)
      simpa using h2
  have hrange : rangeTypes f₁.Types = rangeTypes f₂.Types := by
    rw [hr₁, hr₂, hsort]
  have hdecl : tmplTypes x f₁ =
      String.join ((sortByName regs₁).map (fun r =>
        (if r.2.2.getLast?.getD "" ≠ "" then
            "\n" ++ x.Wrap newCommentWrapper (r.2.2.getLast?.getD "") DefaultCommentLineWrap
          else "") ++ "\ntype " ++ r.1 ++ " " ++ rendered (newFile pkgPath) r.2.1)) := by
    rw [htext f₁, hr₁, List.map_map, hw₁, hc₁]
    rfl
  have hinv : ∀ f : GoFile, (∀ k v, mapGet f.Types k = some v → v.Name = k) →
      List.Sorted (fun a b => a < b) ((rangeTypes f.Types).map (fun e => e.2.Name)) := by
    intro f hf
    have hnames : (rangeTypes f.Types).map (fun e => e.2.Name) =
        (rangeTypes f.Types).map Prod.fst :=
      List.map_congr_left (fun e he => hf e.1 e.2 ((mem_rangeTypes _ e).mp he))
    rw [hnames]
    exact hkeys f
  refine ⟨hkeys, htext, fun f => rfl,
    fun f hf => ⟨hinv f hf, fun name typ cmts => DefineType_keeps_names f name typ cmts hf⟩,
    sortByName_sorted regs₁ hnd₁, sortByName_perm regs₁, ?_, hdecl, hsort, hrange, ?_⟩
  · rw [hr₁, List.map_map]
    rfl
  · have ht : tmplType x f₁ = tmplType x f₂ := by
      funext t
      simp [tmplType, wrapComment, hw₁, hw₂, hc₁, hc₂]
    simp only [tmplTypes, hrange, ht]

/-- C9 on the types `S` and `A` registered in the two orders, with the comment
after `// ` on one line and a formatter that returns its input: the two files
differ, `A` is declared before `S` in both, and the text of the declarations
and the whole output of `Render` are the same. -/
theorem Render_types_sorted_witness :
    regsSA.Perm regsAS ∧
    NewGoFile "pkg" (regsSA.map register) = returned fileSA none ∧
    NewGoFile "pkg" (regsAS.map register) = returned fileAS none ∧
    fileSA ≠ fileAS ∧
    (rangeTypes fileSA.Types).map (fun e => e.2.Name) = ["A", "S"] ∧
    tmplTypes plainCollaborators fileSA =
      "\ntype A int\n// S is a test type.\ntype S struct \x7b\n" ++
        "\tA int `json:\"a\" env:\"A\"`\n\tB int `json:\"b\" env:\"B\"`\n\x7d" ∧
    tmplTypes plainCollaborators fileAS =
      "\ntype A int\n// S is a test type.\ntype S struct \x7b\n" ++
        "\tA int `json:\"a\" env:\"A\"`\n\tB int `json:\"b\" env:\"B\"`\n\x7d" ∧
    fileSA.Render plainCollaborators =
      .ok ("\npackage pkg\ntype A int\n// S is a test type.\ntype S struct \x7b\n" ++
        "\tA int `json:\"a\" env:\"A\"`\n\tB int `json:\"b\" env:\"B\"`\n\x7d\n") ∧
    fileAS.Render plainCollaborators =
      .ok ("\npackage pkg\ntype A int\n// S is a test type.\ntype S struct \x7b\n" ++
        "\tA int `json:\"a\" env:\"A\"`\n\tB int `json:\"b\" env:\"B\"`\n\x7d\n") :=
  ⟨List.Perm.swap _ _ _, by decide, by decide, by decide, by decide,
    (Render_types_sorted plainCollaborators "pkg" regsSA regsAS fileSA fileAS
      (List.Perm.swap _ _ _) (by decide) (by decide)).2.2.2.2.2.2.2.1.trans (by decide),
    ((Render_types_sorted plainCollaborators "pkg" regsSA regsAS fileSA fileAS
      (List.Perm.swap _ _ _) (by decide) (by decide)).2.2.2.2.2.2.2.2.2.2.symm).trans
      (by decide),
    rfl, rfl⟩

/-! ## The order of the imports -/

theorem mem_collapseAdjacent (l : List String) (p : String) :
    p ∈ collapseAdjacent l ↔ p ∈ l := by
  induction l with
  | nil => simp [collapseAdjacent]
  | cons s rest ih =>
    cases rest with
    | nil => simp [collapseAdjacent]
    | cons t rest' =>
      by_cases hst : s = t
      · subst hst
        simp only [collapseAdjacent, if_true, ih]
        simp
      · simp only [collapseAdjacent, hst, if_false, List.mem_cons, ih]

theorem collapseAdjacent_sorted (l : List String)
    (h : List.Sorted (fun a b => a ≤ b) l) :
    List.Sorted (fun a b => a < b) (collapseAdjacent l) := by
  induction l with
  | nil => simp [collapseAdjacent]
  | cons s rest ih =>
    cases rest with
    | nil => simp [collapseAdjacent]
    | cons t rest' =>
      have hrest := ih (List.Sorted.of_cons h)
      have hst : s ≤ t := List.rel_of_sorted_cons h t (List.mem_cons_self _ _)
      by_cases heq : s = t
      · simpa only [collapseAdjacent, heq, if_true] using hrest
      · simp only [collapseAdjacent, heq, if_false]
        refine List.sorted_cons.mpr ⟨fun y hy => ?_, hrest⟩
        have hy' : y ∈ t :: rest' := (mem_collapseAdjacent _ _).mp hy
        have hty : t ≤ y := by
          rcases List.mem_cons.mp hy' with rfl | hmem
          · exact le_refl _
          · exact List.rel_of_sorted_cons (List.Sorted.of_cons h) y hmem
        exact lt_of_lt_of_le (lt_of_le_of_ne hst heq) hty

theorem sortImports_sorted (l : List String) :
    List.Sorted (fun a b => a < b) (sortImports l) :=
  collapseAdjacent_sorted _ (insertionSort_sorted_le l)

theorem mem_sortImports (l : List String) (p : String) : p ∈ sortImports l ↔ p ∈ l := by
  simp [sortImports, mem_collapseAdjacent, (List.perm_insertionSort stringLE l).mem_iff]

/-- The template itself lists the import paths as accumulated, a repeated path
twice: on the file of the test `multiple imports`. -/
theorem tmplImports_as_accumulated :
    tmplImports plainCollaborators
      (NewGoFile "path/to/pkg"
        [Import ["fmt"], Import ["fmt"], Import ["sync"],
          Import ["github.com/example/example"]]).1 =
      "\n\nimport (\n        \"fmt\"\n        \"fmt\"\n        \"sync\"" ++
        "\n        \"github.com/example/example\"\n)" := by
  decide

/-- C10: the import paths in the output of `Render` are in strictly ascending
order, hence sorted and without a repetition; they are the paths accumulated
in the file; and two files that accumulated the same paths, in whatever order
and however many times each, emit the same list. -/
theorem Render_imports_sorted (f : GoFile) :
    List.Sorted (fun a b => a < b) f.emittedImports ∧
    (∀ p, p ∈ f.emittedImports ↔ p ∈ f.Imports) ∧
    (∀ g : GoFile, (∀ p, p ∈ f.Imports ↔ p ∈ g.Imports) →
      f.emittedImports = g.emittedImports) := by
  refine ⟨sortImports_sorted _, mem_sortImports _, fun g h => ?_⟩
  apply List.eq_of_perm_of_sorted _ (sortImports_sorted f.Imports)
    (sortImports_sorted g.Imports)
  rw [List.perm_ext_iff_of_nodup (sortImports_sorted _).nodup (sortImports_sorted _).nodup]
  intro p
  rw [mem_sortImports, mem_sortImports, h]

/-- C10 on the test `multiple imports`: `fmt` twice, `sync` and
`github.com/example/example` are emitted as `fmt`,
`github.com/example/example`, `sync`, and so are they when accumulated in
another order. -/
theorem Render_imports_sorted_witness :
    (NewGoFile "path/to/pkg"
      [Import ["fmt"], Import ["fmt"], Import ["sync"],
        Import ["github.com/example/example"]]).1.emittedImports =
      ["fmt", "github.com/example/example", "sync"] ∧
    (NewGoFile "path/to/pkg"
      [Import ["fmt"], Import ["fmt"], Import ["sync"],
        Import ["github.com/example/example"]]).1.emittedImports =
    (NewGoFile "path/to/pkg"
      [Import ["sync", "github.com/example/example"], Import ["fmt"]]).1.emittedImports :=
  ⟨by decide,
    (Render_imports_sorted _).2.2 _ (by
      intro p
      simp [NewGoFile, NewGoFileCalls, applyOptions, Import, newFile]
      tauto)⟩

/-! ## The default of the renderer -/

/-- C18: for an unnamed type whose kind is none of pointer, slice, channel,
map and struct, `render` writes the default text of the type and returns the
file as it was, import list included; and it does so without a call of
`render`: on a type graph the call returns at depth one. -/
theorem render_default (f : GoFile) (buf : String) (typ : ReflectType)
    (hn : typ.Name = "")
    (hk : typ.Kind ≠ Kind.Ptr ∧ typ.Kind ≠ Kind.Slice ∧ typ.Kind ≠ Kind.Chan ∧
      typ.Kind ≠ Kind.Map ∧ typ.Kind ≠ Kind.Struct) :
    render f buf typ = (f, buf ++ typ.String) ∧
    ∀ (g : TypeGraph) (n : Nat), (g n).hdr = typ.hdr → (g n).Kind = typ.Kind →
      renderOn g 1 f buf n = some (f, buf ++ typ.String) := by
  constructor
  · cases typ <;>
      simp_all [render, ReflectType.Kind, ReflectType.Name, ReflectType.String,
        ReflectType.hdr]
  · intro g n hh hkind
    rw [← hkind] at hk
    have hname : (g n).hdr.Name = "" := by rw [hh]; exact hn
    have hstr : typ.String = (g n).hdr.Str := by rw [hh]; rfl
    rw [hstr]
    unfold renderOn
    cases hg : g n <;> simp_all [TypeNode.Kind, TypeNode.hdr]

/-- C18 at the type `[2]time.Time`: the text, and the file as it was. -/
theorem render_default_witness :
    arrayOfTime.Name = "" ∧
    (arrayOfTime.Kind ≠ Kind.Ptr ∧ arrayOfTime.Kind ≠ Kind.Slice ∧
      arrayOfTime.Kind ≠ Kind.Chan ∧ arrayOfTime.Kind ≠ Kind.Map ∧
      arrayOfTime.Kind ≠ Kind.Struct) ∧
    render pkgFile "" arrayOfTime = (pkgFile, "[2]time.Time") :=
  ⟨rfl, by decide,
    (render_default pkgFile "" arrayOfTime rfl (by decide)).1⟩

/-! ## The options that set one field -/

theorem afterOptions_keeps_field {α : Type} (proj : GoFile → α)
    (opts : List GoFileOption) (gf g : GoFile)
    (hk : ∀ o ∈ opts, ∀ g' : GoFile, proj (o g').1 = proj g')
    (h : afterOptions gf opts = some g) : proj g = proj gf := by
  induction opts generalizing gf with
  | nil => simp_all [afterOptions]
  | cons opt rest ih =>
    obtain ⟨-, h'⟩ := afterOptions_cons_some _ _ _ _ h
    rw [ih _ (fun o ho => hk o (List.mem_cons_of_mem _ ho)) h']
    exact hk opt (List.mem_cons_self _ _) gf

/-- C19: each of `PkgName`, `PkgComment`, `PreambleComment` and
`CommentLineWrap` returns, without error and without panic, and leaves the
file it was given with one field set, the package name, the package comment,
the preamble or the wrap width, and every other field as it was; and a file
that `NewGoFile` creates with options that all keep the wrap width, as the
other three and `DefineType` do, has the wrap width 79. -/
theorem options_set_one_field (f : GoFile) (name cmnt : String) (limit : Int) :
    PkgName name f = returned { f with PkgName := name } none ∧
    PkgComment cmnt f = returned { f with PkgComment := cmnt } none ∧
    PreambleComment cmnt f = returned { f with Preamble := cmnt } none ∧
    CommentLineWrap limit f = returned { f with commentLineWrap := limit } none ∧
    (∀ (pkgPath : String) (opts : List GoFileOption) (g : GoFile),
      (∀ o ∈ opts, ∀ g' : GoFile, (o g').1.commentLineWrap = g'.commentLineWrap) →
      NewGoFile pkgPath opts = returned g none → g.commentLineWrap = 79) ∧
    (∀ (typ : ReflectType) (opts : List TypeOption) (g' : GoFile),
      (PkgName name g').1.commentLineWrap = g'.commentLineWrap ∧
      (PkgComment cmnt g').1.commentLineWrap = g'.commentLineWrap ∧
      (PreambleComment cmnt g').1.commentLineWrap = g'.commentLineWrap ∧
      (DefineType name typ opts g').1.commentLineWrap = g'.commentLineWrap) := by
  refine ⟨rfl, rfl, rfl, rfl, fun pkgPath opts g hk h => ?_, fun typ opts g' =>
    ⟨rfl, rfl, rfl, (DefineType_keeps_fields g' name typ opts).2.2.1⟩⟩
  have hp := NewGoFile_ok_ne_empty _ _ _ h
  rw [NewGoFile_eq_ok_iff _ _ _ hp] at h
  exact afterOptions_keeps_field (fun g => g.commentLineWrap) opts _ g hk h

/-- C19 on the files of the tests: the wrap width 79 without the option
`CommentLineWrap`, and 50 with `CommentLineWrap(50)`. -/
theorem options_set_one_field_witness :
    NewGoFile "path/to/pkg" [PkgName "foo", PreambleComment "LICENSE GOES HERE"] =
      returned
        (NewGoFile "path/to/pkg" [PkgName "foo", PreambleComment "LICENSE GOES HERE"]).1
        none ∧
    (NewGoFile "path/to/pkg"
      [PkgName "foo", PreambleComment "LICENSE GOES HERE"]).1.commentLineWrap = 79 ∧
    (CommentLineWrap 50 reflect2goFile).1.commentLineWrap = 50 ∧
    (CommentLineWrap 50 reflect2goFile).1.PkgName = "reflect2go" :=
  ⟨by decide,
    (options_set_one_field pkgFile "foo" "LICENSE GOES HERE" 50).2.2.2.2.1 "path/to/pkg"
      [PkgName "foo", PreambleComment "LICENSE GOES HERE"]
      (NewGoFile "path/to/pkg" [PkgName "foo", PreambleComment "LICENSE GOES HERE"]).1
      (by
        intro o ho g'
        simp only [List.mem_cons, List.mem_singleton, List.not_mem_nil, or_false] at ho
        rcases ho with rfl | rfl <;> rfl)
      (by decide),
    congrArg (fun r => r.1.commentLineWrap)
      (options_set_one_field reflect2goFile "" "" 50).2.2.2.1,
    by decide⟩

/-! ## The text of the template -/

/-- C16: the template writes no import block for an empty import list, the
line `import` with the one quoted path for a list of one path, and for a
longer list `import (`, one quoted path per line and `)`; and for the file of
`path/to/pkg` without options the whole text of the template is the package
clause `package pkg` on a line of its own. -/
theorem tmplImports_forms (x : Collaborators) (f : GoFile) :
    (f.Imports = [] → tmplImports x f = "") ∧
    (∀ p, f.Imports = [p] → tmplImports x f = "\n\nimport " ++ x.Quote p) ∧
    (1 < f.Imports.length →
      tmplImports x f =
        "\n\nimport (" ++
          String.join (f.Imports.map (fun p => "\n        " ++ x.Quote p)) ++ "\n)") ∧
    execTemplate x (NewGoFile "path/to/pkg" []).1 = "\npackage pkg\n" := by
  refine ⟨fun h => by simp [tmplImports, h], fun p h => by simp [tmplImports, h],
    fun h => ?_, ?_⟩
  · have h1 : f.Imports.length ≠ 1 := by omega
    simp [tmplImports, h1, h]
  · have hf : (NewGoFile "path/to/pkg" []).1 = newFile "path/to/pkg" := by decide
    have hb : pathBase "path/to/pkg" = "pkg" := by decide
    have hr : rangeTypes (some []) = [] := by decide
    simp [hf, execTemplate, tmplComments, tmplPackage, tmplImports, tmplTypes, newFile, hb,
      hr, String.join]

/-- C16 on the tests `one import` and `multiple imports`, the paths between
double quotes. -/
theorem tmplImports_forms_witness :
    (NewGoFile "path/to/pkg" [Import ["path/to/import"]]).1.Imports = ["path/to/import"] ∧
    tmplImports plainCollaborators (NewGoFile "path/to/pkg" [Import ["path/to/import"]]).1 =
      "\n\nimport \"path/to/import\"" ∧
    1 < (NewGoFile "path/to/pkg" [Import ["fmt"], Import ["sync"]]).1.Imports.length ∧
    tmplImports plainCollaborators
        (NewGoFile "path/to/pkg" [Import ["fmt"], Import ["sync"]]).1 =
      "\n\nimport (\n        \"fmt\"\n        \"sync\"\n)" :=
  ⟨by decide,
    ((tmplImports_forms plainCollaborators _).2.1 "path/to/import" (by decide)).trans
      (by decide),
    by decide,
    ((tmplImports_forms plainCollaborators _).2.2.1 (by decide)).trans (by decide)⟩

/-- C13, what the code does: the template writes the preamble under the
test `ne .PkgComment ""`, so a file with an empty package comment gets no
preamble whatever its preamble is, and the file of `path/to/pkg` with the
option `PreambleComment("LICENSE GOES HERE")` alone gets the package clause
and nothing else; with a package comment set the text begins with the wrapped
preamble and a blank line. -/
theorem tmplComments_preamble (x : Collaborators) :
    (∀ f : GoFile, f.PkgComment = "" →
      execTemplate x f = tmplPackage f ++ tmplImports x f ++ tmplTypes x f ++ "\n") ∧
    (NewGoFile "path/to/pkg" [PreambleComment "LICENSE GOES HERE"]).1.Preamble =
      "LICENSE GOES HERE" ∧
    execTemplate x (NewGoFile "path/to/pkg" [PreambleComment "LICENSE GOES HERE"]).1 =
      "\npackage pkg\n" ∧
    (∀ f : GoFile, f.PkgComment ≠ "" →
      execTemplate x f =
        "\n" ++ wrapComment x f f.Preamble ++ "\n\n" ++
          ("\n" ++ wrapComment x f f.PkgComment ++ tmplPackage f ++ tmplImports x f ++
            tmplTypes x f ++ "\n")) := by
  refine ⟨fun f h => by simp [execTemplate, tmplComments, h], by decide, ?_,
    fun f h => by simp [execTemplate, tmplComments, h, String.append_assoc]⟩
  have hf : (NewGoFile "path/to/pkg" [PreambleComment "LICENSE GOES HERE"]).1 =
      { newFile "path/to/pkg" with Preamble := "LICENSE GOES HERE" } := by decide
  have hb : pathBase "path/to/pkg" = "pkg" := by decide
  have hr : rangeTypes (some []) = [] := by decide
  simp [hf, execTemplate, tmplComments, tmplPackage, tmplImports, tmplTypes, newFile, hb,
    hr, String.join]

/-! ## `Render` reads the file -/

theorem lookup_eq_of_perm (es es' : List (String × typeDef)) (h : es.Perm es')
    (hnd : (es.map Prod.fst).Nodup) (k : String) : es.lookup k = es'.lookup k := by
  induction h with
  | nil => rfl
  | cons e _ ih =>
    obtain ⟨k', v⟩ := e
    rw [List.map_cons, List.nodup_cons] at hnd
    cases hb : k == k' <;> simp only [List.lookup, hb]
    exact ih hnd.2
  | swap e₁ e₂ l =>
    obtain ⟨k₁, v₁⟩ := e₁
    obtain ⟨k₂, v₂⟩ := e₂
    have hne : k₂ ≠ k₁ := by
      intro heq
      simp [heq] at hnd
    cases hb₁ : k == k₁ <;> cases hb₂ : k == k₂ <;> simp only [List.lookup, hb₁, hb₂]
    exact absurd ((beq_iff_eq.mp hb₂).symm.trans (beq_iff_eq.mp hb₁)) hne
  | trans h₁ _ ih₁ ih₂ =>
    exact (ih₁ hnd).trans (ih₂ ((h₁.map Prod.fst).nodup_iff.mp hnd))

theorem RenderCall_eq (x : Collaborators) (f : GoFile) (w : String) :
    f.RenderCall x w =
      match f.Render x with
      | .ok text => .ok (f, w ++ text)
      | .error err => .error err := by
  simp only [GoFile.RenderCall, GoFile.Render, Execute]
  cases x.Source (execTemplate x f) <;> rfl

/-- The text of the template, and so the result of `Render`, is the same for
two files with the same fields whose type maps read the same at every key. -/
theorem execTemplate_congr (x : Collaborators) (f g : GoFile)
    (h1 : g.wrapper = f.wrapper) (h2 : g.commentLineWrap = f.commentLineWrap)
    (h3 : g.Preamble = f.Preamble) (h4 : g.PkgComment = f.PkgComment)
    (h5 : g.PkgName = f.PkgName) (h6 : g.Imports = f.Imports)
    (h7 : ∀ k, mapGet g.Types k = mapGet f.Types k) :
    execTemplate x g = execTemplate x f := by
  have hrange := rangeTypes_congr _ _ h7
  have ht : tmplType x g = tmplType x f := by
    funext t
    simp [tmplType, wrapComment, h1, h2]
  simp [execTemplate, tmplComments, tmplPackage, tmplImports, tmplTypes, wrapComment,
    h1, h2, h3, h4, h5, h6, hrange, ht]

/-- C14: a call of `Render` hands the text of the template to the formatter
and, when the formatter accepts it, appends the formatted text to the writer
and leaves the file it was called on, with its import list and its type map;
when the formatter rejects it, the call panics. A second call on the file
that the first leaves writes the same text again, to whatever writer, and
panics again if the first did. The text is the same for two files with the
same fields whose type maps hold the same entries, and it does not depend on
the order in which the map keeps its entries. -/
theorem Render_read_only (x : Collaborators) (f : GoFile) (w : String) :
    (∀ text, x.Source (execTemplate x f) = .ok text →
      f.RenderCall x w = .ok (f, w ++ text)) ∧
    (∀ err, x.Source (execTemplate x f) = .error err → f.RenderCall x w = .error err) ∧
    (f.RenderCall x w).map Prod.snd = (f.Render x).map (fun text => w ++ text) ∧
    (∀ r, f.RenderCall x w = .ok r → r.1 = f) ∧
    (∀ r, f.RenderCall x w = .ok r → r.1.RenderCall x w = f.RenderCall x w) ∧
    (∀ r, f.RenderCall x w = .ok r →
      ∃ text, x.Source (execTemplate x f) = .ok text ∧ r.2 = w ++ text ∧
        ∀ w', r.1.RenderCall x w' = .ok (f, w' ++ text)) ∧
    (∀ err, f.RenderCall x w = .error err → ∀ w', f.RenderCall x w' = .error err) ∧
    (∀ g : GoFile, g.pkgPath = f.pkgPath → g.wrapper = f.wrapper →
      g.commentLineWrap = f.commentLineWrap → g.Preamble = f.Preamble →
      g.PkgComment = f.PkgComment → g.PkgName = f.PkgName → g.Imports = f.Imports →
      (∀ k, mapGet g.Types k = mapGet f.Types k) →
      execTemplate x g = execTemplate x f ∧ g.Render x = f.Render x ∧
      (g.RenderCall x w).map Prod.snd = (f.RenderCall x w).map Prod.snd) ∧
    (∀ es es' : List (String × typeDef), f.Types = some es → es.Perm es' →
      (es.map Prod.fst).Nodup →
      execTemplate x { f with Types := some es' } = execTemplate x f ∧
      GoFile.Render x { f with Types := some es' } = f.Render x) := by
  have hok : ∀ (w' : String) (text : String), x.Source (execTemplate x f) = .ok text →
      f.RenderCall x w' = .ok (f, w' ++ text) := by
    intro w' text h
    simp only [GoFile.RenderCall, Execute, h]
  have herr : ∀ (w' : String) (err : String), x.Source (execTemplate x f) = .error err →
      f.RenderCall x w' = .error err := by
    intro w' err h
    simp only [GoFile.RenderCall, Execute, h]
  have hcases : ∀ r, f.RenderCall x w = .ok r →
      ∃ text, x.Source (execTemplate x f) = .ok text ∧ r = (f, w ++ text) := by
    intro r h
    cases hs : x.Source (execTemplate x f) with
    | error err =>
      rw [herr w err hs] at h
      cases h
    | ok text =>
      rw [hok w text hs] at h
      cases h
      exact ⟨text, rfl, rfl⟩
  have hcongr : ∀ g : GoFile, execTemplate x g = execTemplate x f →
      g.Render x = f.Render x ∧
      (g.RenderCall x w).map Prod.snd = (f.RenderCall x w).map Prod.snd := by
    intro g hexec
    have hrender : g.Render x = f.Render x := by
      simp [GoFile.Render, hexec]
    refine ⟨hrender, ?_⟩
    rw [RenderCall_eq, RenderCall_eq, hrender]
    cases f.Render x <;> rfl
  refine ⟨hok w, herr w, ?_, fun r h => ?_, fun r h => ?_, fun r h => ?_,
    fun err h w' => ?_, fun g _ h2 h3 h4 h5 h6 h7 h8 => ?_,
    fun es es' hes hperm hnd => ?_⟩
  · rw [RenderCall_eq]
    cases f.Render x <;> rfl
  · obtain ⟨text, -, hr⟩ := hcases r h
    rw [hr]
  · obtain ⟨text, -, hr⟩ := hcases r h
    rw [hr]
  · obtain ⟨text, hs, hr⟩ := hcases r h
    rw [hr]
    exact ⟨text, hs, rfl, fun w' => hok w' text hs⟩
  · cases hs : x.Source (execTemplate x f) with
    | error err' =>
      rw [herr w err' hs] at h
      cases h
      exact herr w' _ hs
    | ok text =>
      rw [hok w text hs] at h
      cases h
  · have hexec := execTemplate_congr x f g h2 h3 h4 h5 h6 h7 h8
    exact ⟨hexec, hcongr g hexec⟩
  · have hexec : execTemplate x { f with Types := some es' } = execTemplate x f :=
      execTemplate_congr x f { f with Types := some es' } rfl rfl rfl rfl rfl rfl
        (fun k => by
          rw [hes]
          exact (lookup_eq_of_perm es es' hperm hnd k).symm)
    exact ⟨hexec, (hcongr _ hexec).1⟩

/-- C14 on a file with a preamble, a package comment, a type with a comment
that records an import, and a second type, with the comments after `// ` on
one line, the paths between double quotes and a formatter that returns its
input: the call leaves the file and writes the text; a second call, on the
file that the first leaves and to the writer that holds the text, writes the
same text after it; and the file made with the two types defined in the other
order, which keeps the entries of the map in the other order, gives the same
text. -/
theorem Render_read_only_witness :
    richFile.RenderCall plainCollaborators "" =
      .ok (richFile,
        "" ++ ("\n// LICENSE GOES HERE\n\n\n// Package pkg has types.\npackage pkg" ++
          "\n\nimport \"time\"\ntype A int\n// T is a time.\ntype T *time.Time\n")) ∧
    richFile.RenderCall plainCollaborators
        ("\n// LICENSE GOES HERE\n\n\n// Package pkg has types.\npackage pkg" ++
          "\n\nimport \"time\"\ntype A int\n// T is a time.\ntype T *time.Time\n") =
      .ok (richFile,
        ("\n// LICENSE GOES HERE\n\n\n// Package pkg has types.\npackage pkg" ++
          "\n\nimport \"time\"\ntype A int\n// T is a time.\ntype T *time.Time\n") ++
        ("\n// LICENSE GOES HERE\n\n\n// Package pkg has types.\npackage pkg" ++
          "\n\nimport \"time\"\ntype A int\n// T is a time.\ntype T *time.Time\n")) ∧
    richFile.Imports = ["time"] ∧
    richFile.Types =
      some [("T", ⟨"T is a time.", "T", "*time.Time"⟩), ("A", ⟨"", "A", "int"⟩)] ∧
    richFileSwapped =
      { richFile with
        Types := some [("A", ⟨"", "A", "int"⟩), ("T", ⟨"T is a time.", "T", "*time.Time"⟩)] } ∧
    richFileSwapped ≠ richFile ∧
    GoFile.Render plainCollaborators
        { richFile with
          Types :=
            some [("A", ⟨"", "A", "int"⟩), ("T", ⟨"T is a time.", "T", "*time.Time"⟩)] } =
      richFile.Render plainCollaborators :=
  ⟨(Render_read_only plainCollaborators richFile "").1 _ rfl,
    (Render_read_only plainCollaborators richFile _).1 _ rfl,
    by decide, by decide, by decide, by decide,
    ((Render_read_only plainCollaborators richFile "").2.2.2.2.2.2.2.2
      [("T", ⟨"T is a time.", "T", "*time.Time"⟩), ("A", ⟨"", "A", "int"⟩)]
      [("A", ⟨"", "A", "int"⟩), ("T", ⟨"T is a time.", "T", "*time.Time"⟩)]
      (by decide) (List.Perm.swap _ _ _) (by decide)).2⟩

/-! ## What the renderer records -/

mutual
theorem ReflectType.induction_on {P : ReflectType → Prop}
    (hptr : ∀ h e, P e → P (.ptr h e))
    (hslice : ∀ h e, P e → P (.slice h e))
    (harray : ∀ h n e, P e → P (.array h n e))
    (hchan : ∀ h d e, P e → P (.chan h d e))
    (hmap : ∀ h k e, P k → P e → P (.map h k e))
    (hstruct : ∀ h fs, (∀ sf ∈ fs, P sf.Typ) → P (.struct h fs))
    (hother : ∀ k h, P (.other k h)) : ∀ t : ReflectType, P t
  | .ptr h e =>
    hptr h e (ReflectType.induction_on hptr hslice harray hchan hmap hstruct hother e)
  | .slice h e =>
    hslice h e (ReflectType.induction_on hptr hslice harray hchan hmap hstruct hother e)
  | .array h n e =>
    harray h n e (ReflectType.induction_on hptr hslice harray hchan hmap hstruct hother e)
  | .chan h d e =>
    hchan h d e (ReflectType.induction_on hptr hslice harray hchan hmap hstruct hother e)
  | .map h k e =>
    hmap h k e (ReflectType.induction_on hptr hslice harray hchan hmap hstruct hother k)
      (ReflectType.induction_on hptr hslice harray hchan hmap hstruct hother e)
  | .struct h fs =>
    hstruct h fs
      (ReflectType.induction_on_fields hptr hslice harray hchan hmap hstruct hother fs)
  | .other k h => hother k h
theorem ReflectType.induction_on_fields {P : ReflectType → Prop}
    (hptr : ∀ h e, P e → P (.ptr h e))
    (hslice : ∀ h e, P e → P (.slice h e))
    (harray : ∀ h n e, P e → P (.array h n e))
    (hchan : ∀ h d e, P e → P (.chan h d e))
    (hmap : ∀ h k e, P k → P e → P (.map h k e))
    (hstruct : ∀ h fs, (∀ sf ∈ fs, P sf.Typ) → P (.struct h fs))
    (hother : ∀ k h, P (.other k h)) :
    ∀ fs : List (StructField ReflectType), ∀ sf ∈ fs, P sf.Typ
  | [], _, hsf => absurd hsf (List.not_mem_nil _)
  | ⟨name, typ, tag, anon⟩ :: rest, sf, hsf => by
    rcases List.mem_cons.mp hsf with rfl | hmem
    · exact ReflectType.induction_on hptr hslice harray hchan hmap hstruct hother typ
    · exact ReflectType.induction_on_fields hptr hslice harray hchan hmap hstruct hother
        rest sf hmem
end

theorem renderFields_recorded (fs : List (StructField ReflectType)) (f : GoFile)
    (buf : String) :
    (renderFields f buf fs).1 = addImports f (fs.flatMap (fun sf => recorded f sf.Typ)) := by
  induction fs generalizing f buf with
  | nil => simp [renderFields]
  | cons sf rest ih =>
    simp only [renderFields, render_frame, ih, List.flatMap_cons, recorded_addImports,
      addImports_addImports]

theorem renderNamed_recorded (f : GoFile) (buf : String) (h : rtype) :
    (renderNamed f buf h).1 =
      addImports f (if h.PkgPath ≠ "" ∧ h.PkgPath ≠ f.pkgPath then [h.PkgPath] else []) := by
  unfold renderNamed
  split <;> simp [addImports]

theorem recorded_eq (f : GoFile) (buf : String) (t : ReflectType) (I : List String)
    (h : ∀ g : GoFile, g.pkgPath = f.pkgPath → (render g buf t).1 = addImports g I) :
    recorded f t = I := by
  have := h { f with Imports := [] } rfl
  rw [render_frame] at this
  have h2 := congrArg GoFile.Imports this
  simpa [addImports] using h2

theorem recorded_congr (t : ReflectType) (f g : GoFile) (hp : g.pkgPath = f.pkgPath) :
    recorded g t = recorded f t :=
  (rendered_recorded_congr t g f hp).2

theorem recorded_ptr (f : GoFile) (h : rtype) (e : ReflectType) :
    recorded f (.ptr h e) = recorded f e :=
  recorded_eq f "" _ _ (fun g hp => by
    simp [render, render_frame, recorded_congr e f g hp])

theorem recorded_named (f : GoFile) (t : ReflectType) (hk : t.Kind ≠ Kind.Ptr)
    (hn : t.Name ≠ "") :
    recorded f t =
      if t.PkgPath ≠ "" ∧ t.PkgPath ≠ f.pkgPath then [t.PkgPath] else [] :=
  recorded_eq f "" _ _ (fun g hp => by
    have key : render g "" t = renderNamed g "" t.hdr := by
      cases t <;>
        simp_all [render, ReflectType.Kind, ReflectType.Name, ReflectType.hdr]
    rw [key, renderNamed_recorded, hp]
    rfl)

theorem recorded_slice (f : GoFile) (h : rtype) (e : ReflectType) (hn : h.Name = "") :
    recorded f (.slice h e) = recorded f e :=
  recorded_eq f "" _ _ (fun g hp => by
    simp [render, hn, render_frame, recorded_congr e f g hp])

theorem recorded_chan (f : GoFile) (h : rtype) (d : ChanDir) (e : ReflectType)
    (hn : h.Name = "") : recorded f (.chan h d e) = recorded f e :=
  recorded_eq f "" _ _ (fun g hp => by
    simp [render, hn, render_frame, recorded_congr e f g hp])

theorem recorded_map (f : GoFile) (h : rtype) (k e : ReflectType) (hn : h.Name = "") :
    recorded f (.map h k e) = recorded f k ++ recorded f e :=
  recorded_eq f "" _ _ (fun g hp => by
    simp [render, hn, render_frame, recorded_congr e f g hp, recorded_congr k f g hp])

theorem recorded_struct (f : GoFile) (h : rtype) (fs : List (StructField ReflectType))
    (hn : h.Name = "") :
    recorded f (.struct h fs) = fs.flatMap (fun sf => recorded f sf.Typ) :=
  recorded_eq f "" _ _ (fun g hp => by
    have hfun : (fun sf : StructField ReflectType => recorded g sf.Typ) =
        (fun sf => recorded f sf.Typ) := by
      funext sf
      exact recorded_congr sf.Typ f g hp
    simp [render, hn, renderFields_recorded, hfun])

theorem recorded_array (f : GoFile) (h : rtype) (n : Nat) (e : ReflectType)
    (hn : h.Name = "") : recorded f (.array h n e) = [] :=
  recorded_eq f "" _ _ (fun g _ => by simp [render, hn])

theorem recorded_other (f : GoFile) (k : OpaqueKind) (h : rtype) (hn : h.Name = "") :
    recorded f (.other k h) = [] :=
  recorded_eq f "" _ _ (fun g _ => by simp [render, hn])

/-- Every path that `render` records is the package path of a type of another
package: it is not empty and not the package path of the file. -/
theorem recorded_foreign (t : ReflectType) :
    ∀ (f : GoFile), ∀ p ∈ recorded f t, p ≠ "" ∧ p ≠ f.pkgPath := by
  have hnamed : ∀ (t : ReflectType), t.Kind ≠ Kind.Ptr → t.Name ≠ "" →
      ∀ (f : GoFile), ∀ p ∈ recorded f t, p ≠ "" ∧ p ≠ f.pkgPath := by
    intro t hk hn f p hp
    rw [recorded_named f t hk hn] at hp
    split at hp
    · rename_i hc
      rw [List.mem_singleton] at hp
      rw [hp]
      exact hc
    · simp at hp
  induction t using ReflectType.induction_on with
  | hptr h e ih =>
    intro f p hp
    rw [recorded_ptr] at hp
    exact ih f p hp
  | hslice h e ih =>
    intro f p hp
    by_cases hn : h.Name = ""
    · rw [recorded_slice f h e hn] at hp
      exact ih f p hp
    · exact hnamed (.slice h e) (by simp [ReflectType.Kind]) hn f p hp
  | harray h n e _ =>
    intro f p hp
    by_cases hn : h.Name = ""
    · simp [recorded_array f h n e hn] at hp
    · exact hnamed (.array h n e) (by simp [ReflectType.Kind]) hn f p hp
  | hchan h d e ih =>
    intro f p hp
    by_cases hn : h.Name = ""
    · rw [recorded_chan f h d e hn] at hp
      exact ih f p hp
    · exact hnamed (.chan h d e) (by simp [ReflectType.Kind]) hn f p hp
  | hmap h k e ihk ihe =>
    intro f p hp
    by_cases hn : h.Name = ""
    · rw [recorded_map f h k e hn, List.mem_append] at hp
      rcases hp with hp | hp
      · exact ihk f p hp
      · exact ihe f p hp
    · exact hnamed (.map h k e) (by simp [ReflectType.Kind]) hn f p hp
  | hstruct h fs ih =>
    intro f p hp
    by_cases hn : h.Name = ""
    · rw [recorded_struct f h fs hn, List.mem_flatMap] at hp
      obtain ⟨sf, hsf, hp⟩ := hp
      exact ih sf hsf f p hp
    · exact hnamed (.struct h fs) (by simp [ReflectType.Kind]) hn f p hp
  | hother k h =>
    intro f p hp
    by_cases hn : h.Name = ""
    · simp [recorded_other f k h hn] at hp
    · have hk : (ReflectType.other k h).Kind ≠ Kind.Ptr := by
        cases k <;> simp [ReflectType.Kind, OpaqueKind.toKind]
      exact hnamed (.other k h) hk hn f p hp

theorem DefineType_Imports (f : GoFile) (name : String) (typ : ReflectType)
    (opts : List TypeOption) :
    (f.DefineType name typ opts).1.pkgPath = f.pkgPath ∧
    ∃ added, (f.DefineType name typ opts).1.Imports = f.Imports ++ added ∧
      ∀ p ∈ added, p ≠ "" ∧ p ≠ f.pkgPath := by
  refine ⟨(DefineType_keeps_fields f name typ opts).1, ?_⟩
  by_cases h : name ∈ mapKeys f.Types
  · rw [DefineType_of_mem f name typ opts h]
    exact ⟨[], by simp, by simp⟩
  · exact ⟨recorded f typ, (DefineType_of_not_mem_any f name typ opts h).2.1,
      recorded_foreign typ f⟩

/-- C20: `render` leaves the import list of the file followed by the paths it
has recorded, each of them non-empty and different from the package path of
the file; and so does every sequence of calls of `DefineType`, with or
without an error. -/
theorem Imports_only_grow (f : GoFile) (buf : String) (typ : ReflectType)
    (calls : List (String × ReflectType × List TypeOption)) :
    (∃ added, (render f buf typ).1.Imports = f.Imports ++ added ∧
      ∀ p ∈ added, p ≠ "" ∧ p ≠ f.pkgPath) ∧
    (∃ added,
      (calls.foldl (fun g c => (g.DefineType c.1 c.2.1 c.2.2).1) f).Imports =
        f.Imports ++ added ∧
      ∀ p ∈ added, p ≠ "" ∧ p ≠ f.pkgPath) := by
  refine ⟨⟨recorded f typ, by simp [render_frame], recorded_foreign typ f⟩, ?_⟩
  induction calls generalizing f with
  | nil => exact ⟨[], by simp, by simp⟩
  | cons c rest ih =>
    obtain ⟨hpath, a₁, h₁, hf₁⟩ := DefineType_Imports f c.1 c.2.1 c.2.2
    obtain ⟨a₂, h₂, hf₂⟩ := ih (f.DefineType c.1 c.2.1 c.2.2).1
    refine ⟨a₁ ++ a₂, ?_, ?_⟩
    · rw [List.foldl_cons, h₂, h₁, List.append_assoc]
    · intro p hp
      rcases List.mem_append.mp hp with hp | hp
      · exact hf₁ p hp
      · rw [← hpath]
        exact hf₂ p hp

/-- C20 on the fields `Time time.Time` and `GoFileTest` of the test `typedef`,
in the file of the package of `GoFileTest`: `time` is appended and the package
path of the file is not. -/
theorem Imports_only_grow_witness :
    (render reflect2goFile ""
      (.struct ⟨"", "", ""⟩
        [⟨"Time", timeTime, "", false⟩, ⟨"GoFileTest", goFileTest, "", true⟩])).1.Imports =
      reflect2goFile.Imports ++ ["time"] ∧
    ∃ added,
      (render reflect2goFile ""
        (.struct ⟨"", "", ""⟩
          [⟨"Time", timeTime, "", false⟩,
           ⟨"GoFileTest", goFileTest, "", true⟩])).1.Imports =
        reflect2goFile.Imports ++ added ∧
      ∀ p ∈ added, p ≠ "" ∧ p ≠ reflect2goFile.pkgPath :=
  ⟨by decide, (Imports_only_grow reflect2goFile "" _ []).1⟩

/-! ## Named types -/

/-- Where the renderer stops at a name: for a type with a name whose kind is
not pointer, `render` writes the name, bare or as `%v` prints it, and nothing
of its element, key or field types: the result is the same for every type that
reports the same name, package path and string, and on a type graph the call
returns at depth one; for a type of pointer kind, with or without a name,
`render` writes a star and renders the element. -/
theorem render_named_stops (f : GoFile) (buf : String) (typ : ReflectType)
    (hn : typ.Name ≠ "") :
    (typ.Kind ≠ Kind.Ptr →
      ((render f buf typ).2 = buf ++ typ.Name ∨
        (render f buf typ).2 = buf ++ typ.String) ∧
      (∀ typ' : ReflectType, typ'.hdr = typ.hdr → typ'.Kind ≠ Kind.Ptr →
        render f buf typ' = render f buf typ) ∧
      (∀ (g : TypeGraph) (n : Nat), (g n).hdr = typ.hdr → (g n).Kind ≠ Kind.Ptr →
        renderOn g 1 f buf n = some (render f buf typ))) ∧
    (∀ h e, typ = .ptr h e → render f buf typ = render f (buf ++ "*") e) := by
  have key : ∀ t : ReflectType, t.Kind ≠ Kind.Ptr → t.hdr.Name ≠ "" →
      render f buf t = renderNamed f buf t.hdr := by
    intro t hk hn
    cases t <;> simp_all [render, ReflectType.Kind, ReflectType.hdr]
  refine ⟨fun hk => ⟨?_, fun typ' hh hk' => ?_, fun g n hh hk' => ?_⟩,
    fun h e ht => by rw [ht]; simp [render]⟩
  · rw [key typ hk hn]
    unfold renderNamed
    split
    · exact Or.inr rfl
    · exact Or.inl rfl
  · rw [key typ hk hn, key typ' hk' (by rw [hh]; exact hn), hh]
  · rw [key typ hk hn, ← hh]
    have hname : (g n).hdr.Name ≠ "" := by rw [hh]; exact hn
    unfold renderOn
    cases hg : g n <;> simp_all [TypeNode.Kind, TypeNode.hdr]

/-- The renderer stops at the name of `time.Time` in the file of `pkg`, and
writes the qualified name. -/
theorem render_named_stops_witness :
    timeTime.Name ≠ "" ∧ timeTime.Kind ≠ Kind.Ptr ∧
    ((render pkgFile "" timeTime).2 = "" ++ timeTime.Name ∨
      (render pkgFile "" timeTime).2 = "" ++ timeTime.String) ∧
    (render pkgFile "" timeTime).2 = "time.Time" :=
  ⟨by decide, by decide,
    ((render_named_stops pkgFile "" timeTime (by decide)).1 (by decide)).1, by decide⟩

/-- C12 at the type `P` of a declaration `type P *int`: the type has a name,
and `render`, which tests for a pointer before it tests for a name, writes
`*int`, the star and the element, not the name `P` nor the qualified name
`main.P`. -/
theorem render_named_pointer_expanded :
    namedPointer.Name ≠ "" ∧
    (render pkgFile "" namedPointer).2 = "*int" ∧
    (render pkgFile "" namedPointer).2 ≠ namedPointer.Name ∧
    (render pkgFile "" namedPointer).2 ≠ namedPointer.String := by
  decide

/-! ## Types of other packages under the default -/

/-- C11 at the type `[2]time.Time`: `render` writes the text `[2]time.Time`,
which names the type `Time` of the package `time`, a package that is not that
of the file, and leaves the file as it was: `time` is not in its import list. -/
theorem render_array_records_nothing :
    render pkgFile "" arrayOfTime = (pkgFile, "[2]time.Time") ∧
    timeTime.Name = "Time" ∧ timeTime.PkgPath = "time" ∧
    timeTime.PkgPath ≠ "" ∧ timeTime.PkgPath ≠ pkgFile.pkgPath ∧
    timeTime.PkgPath ∉ (render pkgFile "" arrayOfTime).1.Imports ∧
    timeTime.PkgPath ∈ (render pkgFile "" (.slice ⟨"", "", "[]time.Time"⟩ timeTime)).1.Imports := by
  decide

theorem reachedFields_eq (fs : List (StructField ReflectType)) :
    reachedFields fs = fs.flatMap (fun sf => reached sf.Typ) := by
  induction fs with
  | nil => simp [reachedFields]
  | cons sf rest ih => simp [reachedFields, ih]

/-- The references that the renderer follows are recorded: the package path
of every named type of another package that the text refers to through
pointers, slices, channels, maps and struct fields is in the import list after
`render`. -/
theorem reached_recorded (t : ReflectType) :
    ∀ (f : GoFile) (buf : String), ∀ h ∈ reached t,
      h.PkgPath ≠ "" → h.PkgPath ≠ f.pkgPath →
      h.PkgPath ∈ (render f buf t).1.Imports := by
  have hframe : ∀ (t : ReflectType) (f : GoFile) (buf : String) (p : String),
      p ∈ recorded f t → p ∈ (render f buf t).1.Imports := by
    intro t f buf p hp
    rw [render_frame]
    exact List.mem_append_right _ hp
  have hnamed : ∀ (t : ReflectType), t.Kind ≠ Kind.Ptr → t.Name ≠ "" →
      ∀ (f : GoFile), t.PkgPath ≠ "" → t.PkgPath ≠ f.pkgPath →
      t.PkgPath ∈ recorded f t := by
    intro t hk hn f h1 h2
    rw [recorded_named f t hk hn, if_pos ⟨h1, h2⟩]
    exact List.mem_singleton_self _
  suffices hrec : ∀ (f : GoFile), ∀ h ∈ reached t,
      h.PkgPath ≠ "" → h.PkgPath ≠ f.pkgPath → h.PkgPath ∈ recorded f t from
    fun f buf h hh h1 h2 => hframe t f buf _ (hrec f h hh h1 h2)
  induction t using ReflectType.induction_on with
  | hptr h e ih =>
    intro f h' hh h1 h2
    rw [recorded_ptr]
    exact ih f h' (by simpa [reached] using hh) h1 h2
  | hslice h e ih =>
    intro f h' hh h1 h2
    by_cases hn : h.Name = ""
    · rw [recorded_slice f h e hn]
      exact ih f h' (by simpa [reached, hn] using hh) h1 h2
    · have : h' = h := by simpa [reached, hn] using hh
      subst this
      exact hnamed (.slice h' e) (by simp [ReflectType.Kind]) hn f h1 h2
  | harray h n e _ =>
    intro f h' hh h1 h2
    by_cases hn : h.Name = ""
    · simp [reached, hn] at hh
    · have : h' = h := by simpa [reached, hn] using hh
      subst this
      exact hnamed (.array h' n e) (by simp [ReflectType.Kind]) hn f h1 h2
  | hchan h d e ih =>
    intro f h' hh h1 h2
    by_cases hn : h.Name = ""
    · rw [recorded_chan f h d e hn]
      exact ih f h' (by simpa [reached, hn] using hh) h1 h2
    · have : h' = h := by simpa [reached, hn] using hh
      subst this
      exact hnamed (.chan h' d e) (by simp [ReflectType.Kind]) hn f h1 h2
  | hmap h k e ihk ihe =>
    intro f h' hh h1 h2
    by_cases hn : h.Name = ""
    · rw [recorded_map f h k e hn, List.mem_append]
      have hh' : h' ∈ reached k ∨ h' ∈ reached e := by simpa [reached, hn] using hh
      rcases hh' with hh' | hh'
      · exact Or.inl (ihk f h' hh' h1 h2)
      · exact Or.inr (ihe f h' hh' h1 h2)
    · have : h' = h := by simpa [reached, hn] using hh
      subst this
      exact hnamed (.map h' k e) (by simp [ReflectType.Kind]) hn f h1 h2
  | hstruct h fs ih =>
    intro f h' hh h1 h2
    by_cases hn : h.Name = ""
    · rw [recorded_struct f h fs hn, List.mem_flatMap]
      have hh' : h' ∈ fs.flatMap (fun sf => reached sf.Typ) := by
        simpa [reached, hn, reachedFields_eq] using hh
      obtain ⟨sf, hsf, hmem⟩ := List.mem_flatMap.mp hh'
      exact ⟨sf, hsf, ih sf hsf f h' hmem h1 h2⟩
    · have : h' = h := by simpa [reached, hn] using hh
      subst this
      exact hnamed (.struct h' fs) (by simp [ReflectType.Kind]) hn f h1 h2
  | hother k h =>
    intro f h' hh h1 h2
    by_cases hn : h.Name = ""
    · simp [reached, hn] at hh
    · have : h' = h := by simpa [reached, hn] using hh
      subst this
      have hk : (ReflectType.other k h').Kind ≠ Kind.Ptr := by
        cases k <;> simp [ReflectType.Kind, OpaqueKind.toKind]
      exact hnamed (.other k h') hk hn f h1 h2

/-! ## Termination on type graphs -/

theorem renderFieldsOn_returns
    (call : GoFile → String → Nat → Option (GoFile × String))
    (fs : List (StructField Nat))
    (h : ∀ sf ∈ fs, ∀ f buf, ∃ r, call f buf sf.Typ = some r) :
    ∀ f buf, ∃ r, renderFieldsOn call f buf fs = some r := by
  induction fs with
  | nil => exact fun f buf => ⟨(f, buf), rfl⟩
  | cons sf rest ih =>
    intro f buf
    obtain ⟨r, hr⟩ := h sf (List.mem_cons_self _ _) f
      (buf ++ "\t" ++ (if sf.Anonymous then "" else sf.Name) ++ " ")
    simp only [renderFieldsOn, hr]
    exact ih (fun sf' hsf' => h sf' (List.mem_cons_of_mem _ hsf')) _ _

/-- On a graph where every chain of calls of `render` ends, measured by a
rank that goes down at every call, `render` returns: in particular when the
pointers and the unnamed slices, channels, maps and structs make no cycle,
whatever cycles go through named types that are no pointers. -/
theorem renderOn_returns (g : TypeGraph) (rank : Nat → Nat)
    (hrank : ∀ typ, ∀ c ∈ callees g typ, rank c < rank typ) :
    ∀ (depth typ : Nat) (f : GoFile) (buf : String), rank typ < depth →
      ∃ r, renderOn g depth f buf typ = some r := by
  intro depth
  induction depth with
  | zero => intro typ f buf h; omega
  | succ d ih =>
    intro typ f buf hlt
    have hc : ∀ c ∈ callees g typ, ∀ f buf, ∃ r, renderOn g d f buf c = some r :=
      fun c hcm f buf => ih c f buf (by have := hrank typ c hcm; omega)
    unfold callees at hc
    unfold renderOn
    cases hg : g typ with
    | ptr h e =>
      simp only [hg] at hc
      exact hc e (List.mem_singleton_self _) _ _
    | slice h e =>
      simp only [hg] at hc
      by_cases hn : h.Name ≠ ""
      · simp [hn]
      · simp only [hn, if_false] at hc ⊢
        exact hc e (List.mem_singleton_self _) _ _
    | array h n e =>
      by_cases hn : h.Name ≠ ""
      · simp [hn]
      · simp [hn]
    | chan h dir e =>
      simp only [hg] at hc
      by_cases hn : h.Name ≠ ""
      · simp [hn]
      · simp only [hn, if_false] at hc ⊢
        exact hc e (List.mem_singleton_self _) _ _
    | map h k e =>
      simp only [hg] at hc
      by_cases hn : h.Name ≠ ""
      · simp [hn]
      · simp only [hn, if_false] at hc ⊢
        obtain ⟨r, hr⟩ := hc k (by simp) f (buf ++ "map[")
        simp only [hr]
        exact hc e (by simp) _ _
    | struct h fs =>
      simp only [hg] at hc
      by_cases hn : h.Name ≠ ""
      · simp [hn]
      · simp only [hn, if_false] at hc ⊢
        obtain ⟨r, hr⟩ := renderFieldsOn_returns (renderOn g d) fs
          (fun sf hsf => hc sf.Typ (List.mem_map.mpr ⟨sf, hsf, rfl⟩)) f
          (buf ++ "struct \x7b\n")
        simp only [hr]
        exact ⟨_, rfl⟩
    | other k h =>
      by_cases hn : h.Name ≠ ""
      · simp [hn]
      · simp [hn]

/-- C17 at the type `P` of a declaration `type P *P`: whatever the depth
allowed, the call of `render` does not return, since each call writes a star
and calls `render` on `P` again; on the named struct with a pointer field to
itself the call returns at once, with the name. -/
theorem render_selfPointer_never_returns :
    (∀ (depth : Nat) (f : GoFile) (buf : String),
      renderOn selfPointer depth f buf 0 = none) ∧
    (selfPointer 0).hdr.Name = "P" ∧ (selfPointer 0).Kind = Kind.Ptr ∧
    callees selfPointer 0 = [0] ∧
    (∀ (f : GoFile) (buf : String),
      renderOn selfStruct 1 f buf 0 = some (renderNamed f buf ⟨"S", "main", "main.S"⟩)) := by
  refine ⟨?_, rfl, rfl, rfl, fun f buf => rfl⟩
  intro depth
  induction depth with
  | zero => intro f buf; rfl
  | succ d ih =>
    intro f buf
    simp only [renderOn, selfPointer]
    exact ih f (buf ++ "*")

theorem renderOn_returns_selfStruct (typ : Nat) (f : GoFile) (buf : String) :
    ∃ r, renderOn selfStruct 2 f buf typ = some r := by
  apply renderOn_returns selfStruct (fun t => if t = 0 then 0 else 1)
  · intro t c hc
    by_cases ht : t = 0
    · subst ht
      simp [callees, selfStruct] at hc
    · have hc' : c = 0 := by simpa [callees, selfStruct, ht] using hc
      simp [hc', ht]
  · show (if typ = 0 then 0 else 1) < 2
    split <;> omega

/-! ## The order of the options -/

/-- A field that each call either sets to a value of its own or keeps: after
calls that agree on the value, the field has the value of any call that sets
it, and is as before when no call sets it. -/
theorem afterCalls_field {α : Type} (proj : GoFile → α) (sets : OptionCall → Option α)
    (hstep : ∀ c g, proj (c.option g).1 = (sets c).getD (proj g))
    (calls : List OptionCall) (f f' : GoFile)
    (h : afterOptions f (calls.map OptionCall.option) = some f')
    (hagree : ∀ a ∈ calls, ∀ b ∈ calls, ∀ v w, sets a = some v → sets b = some w → v = w) :
    (∀ c ∈ calls, ∀ v, sets c = some v → proj f' = v) ∧
    ((∀ c ∈ calls, sets c = none) → proj f' = proj f) := by
  induction calls generalizing f with
  | nil =>
    simp only [List.map_nil, afterOptions, Option.some.injEq] at h
    subst h
    simp
  | cons c rest ih =>
    obtain ⟨-, h'⟩ := afterOptions_cons_some _ _ f f' h
    obtain ⟨ih₁, ih₂⟩ := ih _ h' (fun a ha b hb => hagree a (List.mem_cons_of_mem _ ha) b
      (List.mem_cons_of_mem _ hb))
    constructor
    · intro c' hc' v hv
      by_cases hex : ∃ c'' ∈ rest, ∃ w, sets c'' = some w
      · obtain ⟨c'', hc'', w, hw⟩ := hex
        rw [ih₁ c'' hc'' w hw]
        exact (hagree c' hc' c'' (List.mem_cons_of_mem _ hc'') v w hv hw).symm
      · have hnone : ∀ c'' ∈ rest, sets c'' = none := by
          intro c'' hc''
          cases hs : sets c'' with
          | none => rfl
          | some w => exact absurd ⟨c'', hc'', w, hs⟩ hex
        rcases List.mem_cons.mp hc' with rfl | hmem
        · rw [ih₂ hnone, hstep, hv]
          rfl
        · rw [hnone c' hmem] at hv
          cases hv
    · intro hall
      rw [ih₂ (fun c' hc' => hall c' (List.mem_cons_of_mem _ hc')), hstep,
        hall c (List.mem_cons_self _ _)]
      rfl

/-- After two lists of calls that are permutations of one another, such a
field is the same. -/
theorem afterCalls_field_perm {α : Type} (proj : GoFile → α)
    (sets : OptionCall → Option α)
    (hstep : ∀ c g, proj (c.option g).1 = (sets c).getD (proj g))
    (calls₁ calls₂ : List OptionCall) (f f₁ f₂ : GoFile) (hperm : calls₁.Perm calls₂)
    (h₁ : afterOptions f (calls₁.map OptionCall.option) = some f₁)
    (h₂ : afterOptions f (calls₂.map OptionCall.option) = some f₂)
    (hagree : ∀ a ∈ calls₁, ∀ b ∈ calls₁, ∀ v w, sets a = some v → sets b = some w → v = w) :
    proj f₁ = proj f₂ := by
  have hagree₂ : ∀ a ∈ calls₂, ∀ b ∈ calls₂, ∀ v w,
      sets a = some v → sets b = some w → v = w :=
    fun a ha b hb => hagree a (hperm.mem_iff.mpr ha) b (hperm.mem_iff.mpr hb)
  obtain ⟨a₁, b₁⟩ := afterCalls_field proj sets hstep calls₁ f f₁ h₁ hagree
  obtain ⟨a₂, b₂⟩ := afterCalls_field proj sets hstep calls₂ f f₂ h₂ hagree₂
  by_cases hex : ∃ c ∈ calls₁, ∃ v, sets c = some v
  · obtain ⟨c, hc, v, hv⟩ := hex
    rw [a₁ c hc v hv, a₂ c (hperm.mem_iff.mp hc) v hv]
  · have hnone : ∀ c ∈ calls₁, sets c = none := by
      intro c hc
      cases hs : sets c with
      | none => rfl
      | some w => exact absurd ⟨c, hc, w, hs⟩ hex
    rw [b₁ hnone, b₂ (fun c hc => hnone c (hperm.mem_iff.mpr hc))]

theorem entryOf_congr (f g : GoFile) (hp : g.pkgPath = f.pkgPath) (r : Registration) :
    entryOf g r = entryOf f r := by
  simp only [entryOf]
  rw [(rendered_recorded_congr r.2.1 g f hp).1]

theorem records_congr (f g : GoFile) (hp : g.pkgPath = f.pkgPath) (c : OptionCall) :
    c.records g = c.records f := by
  cases c <;> simp [OptionCall.records, recorded_congr _ f g hp]

/-- What one call does to the fields that `DefineType` reads and writes. -/
theorem OptionCall.step (c : OptionCall) (f : GoFile) :
    ((c.option f).2 = none ↔ ∀ n ∈ c.defines, n ∉ mapKeys f.Types) ∧
    (f.Types ≠ none → (c.option f).panics = none ∧ (c.option f).1.Types ≠ none) ∧
    ((c.option f).2 = none → (c.option f).panics = none →
      (c.option f).1.pkgPath = f.pkgPath ∧ (c.option f).1.wrapper = f.wrapper ∧
      (c.option f).1.Imports = f.Imports ++ c.records f ∧
      (∀ k, k ∈ mapKeys (c.option f).1.Types ↔ (k ∈ mapKeys f.Types ∨ k ∈ c.defines)) ∧
      ∀ k v, mapGet (c.option f).1.Types k = some v ↔
        (mapGet f.Types k = some v ∨
          ∃ r, c = OptionCall.DefineType r ∧ r.1 = k ∧ v = entryOf f r)) := by
  cases c with
  | PkgName n =>
    simp [OptionCall.option, Reflect2go.PkgName, OptionCall.defines, OptionCall.records]
  | PkgComment n =>
    simp [OptionCall.option, Reflect2go.PkgComment, OptionCall.defines, OptionCall.records]
  | PreambleComment n =>
    simp [OptionCall.option, Reflect2go.PreambleComment, OptionCall.defines,
      OptionCall.records]
  | CommentLineWrap n =>
    simp [OptionCall.option, Reflect2go.CommentLineWrap, OptionCall.defines,
      OptionCall.records]
  | DefineType r =>
    by_cases hk : r.1 ∈ mapKeys f.Types
    · have hm : f.Types ≠ none := by
        intro h
        rw [h] at hk
        simp [mapKeys] at hk
      simp [OptionCall.option, register, Reflect2go.DefineType,
        DefineType_of_mem _ _ _ _ hk, OptionCall.defines, hk, hm]
    · have hnone : mapGet f.Types r.1 = none := (mapGet_eq_none_iff _ _).mpr hk
      obtain ⟨herr, -, hpan⟩ := DefineType_of_not_mem_any f r.1 r.2.1 (r.2.2.map Comment) hk
      refine ⟨?_, fun hm => ?_, fun _ hv => ?_⟩
      · simp [OptionCall.option, register, Reflect2go.DefineType, herr,
          OptionCall.defines, hk]
      · refine ⟨hpan.mpr hm, ?_⟩
        obtain ⟨es, hes⟩ := Option.ne_none_iff_exists'.mp hm
        simp [OptionCall.option, register, Reflect2go.DefineType,
          DefineType_of_not_mem _ _ _ _ hk hm, withType, hes]
      · have hm : f.Types ≠ none := hpan.mp hv
        simp only [OptionCall.option, register, Reflect2go.DefineType,
          DefineType_of_not_mem _ _ _ _ hk hm, OptionCall.defines, OptionCall.records,
          List.mem_singleton, withType, mem_mapKeys_mapSet _ _ _ _ hm,
          OptionCall.DefineType.injEq, returned_file, true_and]
        refine ⟨fun k => or_comm, fun k v => ?_⟩
        by_cases hkr : k = r.1
        · subst hkr
          simp only [mapGet_mapSet_self _ _ _ hm, hnone, Option.some.injEq]
          constructor
          · intro h
            exact Or.inr ⟨r, rfl, rfl, h.symm⟩
          · rintro (h | ⟨r', hr', -, hv⟩)
            · cases h
            · rw [hv, ← hr']
              rfl
        · rw [mapGet_mapSet_ne _ _ _ _ hkr]
          constructor
          · intro h
            exact Or.inl h
          · rintro (h | ⟨r', hr', hk', -⟩)
            · exact h
            · exact absurd (hr' ▸ hk'.symm) hkr

/-- From a file whose type map is allocated, the calls all return without
error exactly when no name is defined twice and none is a key of the type map
already. -/
theorem afterCalls_some_iff (calls : List OptionCall) (f : GoFile) (hf : f.Types ≠ none) :
    (∃ f', afterOptions f (calls.map OptionCall.option) = some f') ↔
      (calls.flatMap OptionCall.defines).Nodup ∧
      ∀ n ∈ calls.flatMap OptionCall.defines, n ∉ mapKeys f.Types := by
  induction calls generalizing f with
  | nil => simp [afterOptions]
  | cons c rest ih =>
    obtain ⟨hiff, halloc, hstate⟩ := OptionCall.step c f
    obtain ⟨hpan, hf'⟩ := halloc hf
    have hnd : c.defines.Nodup := by cases c <;> simp [OptionCall.defines]
    rw [List.map_cons, afterOptions_cons, List.flatMap_cons, List.nodup_append]
    by_cases hopt : (c.option f).2 = none
    · obtain ⟨-, -, -, hkeys, -⟩ := hstate hopt hpan
      have hfree := hiff.mp hopt
      rw [if_pos ⟨hopt, hpan⟩, ih _ hf']
      simp only [hkeys, not_or, List.mem_append]
      constructor
      · rintro ⟨h1, h2⟩
        refine ⟨⟨hnd, h1, ?_⟩, ?_⟩
        · intro n hn hn'
          exact (h2 n hn').2 hn
        · rintro n (hn | hn)
          · exact hfree n hn
          · exact (h2 n hn).1
      · rintro ⟨⟨-, h1, hdisj⟩, h2⟩
        exact ⟨h1, fun n hn => ⟨h2 n (Or.inr hn), fun hn' => hdisj hn' hn⟩⟩
    · rw [if_neg (fun h => hopt h.1)]
      simp only [List.mem_append]
      constructor
      · rintro ⟨f', hf'⟩
        cases hf'
      · rintro ⟨-, h2⟩
        exact absurd (hiff.mpr (fun n hn => h2 n (Or.inl hn))) hopt

/-- The file that calls leave when they all return without error: the package
path and the wrapper as before, the import list followed by what the calls
record, and in the type map the entries it had and those the calls define. -/
theorem afterCalls_state (calls : List OptionCall) (f f' : GoFile)
    (h : afterOptions f (calls.map OptionCall.option) = some f') :
    f'.pkgPath = f.pkgPath ∧ f'.wrapper = f.wrapper ∧
    f'.Imports = f.Imports ++ calls.flatMap (OptionCall.records f) ∧
    ∀ k v, mapGet f'.Types k = some v ↔
      (mapGet f.Types k = some v ∨
        ∃ r, OptionCall.DefineType r ∈ calls ∧ r.1 = k ∧ v = entryOf f r) := by
  induction calls generalizing f with
  | nil =>
    simp only [List.map_nil, afterOptions, Option.some.injEq] at h
    subst h
    simp
  | cons c rest ih =>
    obtain ⟨⟨hopt, hpan⟩, h'⟩ := afterOptions_cons_some _ _ f f' h
    obtain ⟨hp, hw, himp, -, htypes⟩ := (OptionCall.step c f).2.2 hopt hpan
    obtain ⟨ihp, ihw, ihimp, ihtypes⟩ := ih _ h'
    have hrec : OptionCall.records (c.option f).1 = OptionCall.records f := by
      funext c'
      exact records_congr f _ hp c'
    refine ⟨ihp.trans hp, ihw.trans hw, ?_, fun k v => ?_⟩
    · rw [ihimp, himp, hrec, List.flatMap_cons, List.append_assoc]
    · rw [ihtypes, htypes]
      simp only [entryOf_congr f _ hp, List.mem_cons]
      constructor
      · rintro ((h1 | ⟨r, hr, h2⟩) | ⟨r, hr, h2⟩)
        · exact Or.inl h1
        · exact Or.inr ⟨r, Or.inl hr.symm, h2⟩
        · exact Or.inr ⟨r, Or.inr hr, h2⟩
      · rintro (h1 | ⟨r, hr | hr, h2⟩)
        · exact Or.inl (Or.inl h1)
        · exact Or.inl (Or.inr ⟨r, hr.symm, h2⟩)
        · exact Or.inr ⟨r, hr, h2⟩

/-- The loop over calls of the five functions does not panic when it starts
from a file whose type map is allocated. -/
theorem applyOptions_calls_panics (calls : List OptionCall) (f : GoFile)
    (hf : f.Types ≠ none) :
    (applyOptions f (calls.map OptionCall.option)).1.panics = none := by
  induction calls generalizing f with
  | nil => rfl
  | cons c rest ih =>
    obtain ⟨hpan, hf'⟩ := (OptionCall.step c f).2.1 hf
    rw [List.map_cons]
    cases he : (c.option f).err with
    | some e => rw [applyOptions_cons_err _ _ _ e he]; rfl
    | none =>
      rw [applyOptions_cons_ok _ _ _ he hpan]
      exact ih _ hf'

theorem NewGoFile_calls_panics (p : String) (calls : List OptionCall) :
    (NewGoFile p (calls.map OptionCall.option)).panics = none := by
  by_cases hp : p = ""
  · simp [NewGoFile, NewGoFileCalls, hp]
  · simp only [NewGoFile, NewGoFileCalls, hp, if_false]
    exact applyOptions_calls_panics calls _ (by simp [newFile])

theorem NewGoFile_ok_iff (p : String) (opts : List GoFileOption) :
    ((NewGoFile p opts).2 = none ∧ (NewGoFile p opts).panics = none) ↔
      p ≠ "" ∧ ∃ f, afterOptions (newFile p) opts = some f := by
  by_cases hp : p = ""
  · simp [NewGoFile, NewGoFileCalls, hp]
  · simp only [NewGoFile, NewGoFileCalls, hp, if_false, ne_eq, not_false_eq_true, true_and]
    cases h : afterOptions (newFile p) opts with
    | none =>
      have := (applyOptions_of_none opts _ h).2
      simp only [reduceCtorEq, exists_false, iff_false, not_and]
      intro h1 h2
      rcases this with h3 | h3
      · exact h3 h1
      · exact h3 h2
    | some g => simp [applyOptions_of_some opts _ g h]

theorem sortImports_eq_of_mem (l₁ l₂ : List String) (h : ∀ p, p ∈ l₁ ↔ p ∈ l₂) :
    sortImports l₁ = sortImports l₂ := by
  apply List.eq_of_perm_of_sorted _ (sortImports_sorted l₁) (sortImports_sorted l₂)
  rw [List.perm_ext_iff_of_nodup (sortImports_sorted _).nodup (sortImports_sorted _).nodup]
  intro p
  rw [mem_sortImports, mem_sortImports, h]

theorem OptionCall.keeps (c : OptionCall) (g : GoFile) :
    (c.option g).1.pkgPath = g.pkgPath ∧ (c.option g).1.wrapper = g.wrapper ∧
    (c.option g).1.commentLineWrap = c.setsLineWrap.getD g.commentLineWrap ∧
    (c.option g).1.Preamble = c.setsPreamble.getD g.Preamble ∧
    (c.option g).1.PkgComment = c.setsPkgComment.getD g.PkgComment ∧
    (c.option g).1.PkgName = c.setsPkgName.getD g.PkgName := by
  cases c with
  | PkgName n => exact ⟨rfl, rfl, rfl, rfl, rfl, rfl⟩
  | PkgComment n => exact ⟨rfl, rfl, rfl, rfl, rfl, rfl⟩
  | PreambleComment n => exact ⟨rfl, rfl, rfl, rfl, rfl, rfl⟩
  | CommentLineWrap n => exact ⟨rfl, rfl, rfl, rfl, rfl, rfl⟩
  | DefineType r => exact DefineType_keeps_fields g r.1 r.2.1 (r.2.2.map Comment)

theorem agree_CommentLineWrap (a b : OptionCall) (h : a.agree b) (v w : Int)
    (hv : a.setsLineWrap = some v) (hw : b.setsLineWrap = some w) : v = w := by
  cases a <;> cases b <;> simp_all [OptionCall.agree, OptionCall.setsLineWrap]

theorem agree_PreambleComment (a b : OptionCall) (h : a.agree b) (v w : String)
    (hv : a.setsPreamble = some v) (hw : b.setsPreamble = some w) : v = w := by
  cases a <;> cases b <;> simp_all [OptionCall.agree, OptionCall.setsPreamble]

theorem agree_PkgComment (a b : OptionCall) (h : a.agree b) (v w : String)
    (hv : a.setsPkgComment = some v) (hw : b.setsPkgComment = some w) : v = w := by
  cases a <;> cases b <;> simp_all [OptionCall.agree, OptionCall.setsPkgComment]

theorem agree_PkgName (a b : OptionCall) (h : a.agree b) (v w : String)
    (hv : a.setsPkgName = some v) (hw : b.setsPkgName = some w) : v = w := by
  cases a <;> cases b <;> simp_all [OptionCall.agree, OptionCall.setsPkgName]

/-- C15, as the code has it: for two lists of calls of `PkgName`,
`PkgComment`, `PreambleComment`, `CommentLineWrap` and `DefineType` that are
permutations of one another and in which no two calls set one field to two
values, `NewGoFile` succeeds on both or fails on both, and panics on neither;
and when it succeeds the two files have the same package path, wrapper, wrap
width, preamble, package comment and package name, type maps with the same
entries, and import lists that are permutations of one another, so that the
template writes the same comments, package clause and declarations, the output
has the same import paths, and `Render` gives the same result when the import
lists are equal. -/
theorem NewGoFile_permutation (x : Collaborators) (pkgPath : String)
    (calls₁ calls₂ : List OptionCall) (hperm : calls₁.Perm calls₂)
    (hagree : ∀ a ∈ calls₁, ∀ b ∈ calls₁, a.agree b) :
    ((NewGoFile pkgPath (calls₁.map OptionCall.option)).2 = none ↔
      (NewGoFile pkgPath (calls₂.map OptionCall.option)).2 = none) ∧
    ((NewGoFile pkgPath (calls₁.map OptionCall.option)).panics = none ∧
      (NewGoFile pkgPath (calls₂.map OptionCall.option)).panics = none) ∧
    ∀ f₁ f₂ : GoFile,
      NewGoFile pkgPath (calls₁.map OptionCall.option) = returned f₁ none →
      NewGoFile pkgPath (calls₂.map OptionCall.option) = returned f₂ none →
      f₁.pkgPath = f₂.pkgPath ∧ f₁.wrapper = f₂.wrapper ∧
      f₁.commentLineWrap = f₂.commentLineWrap ∧ f₁.Preamble = f₂.Preamble ∧
      f₁.PkgComment = f₂.PkgComment ∧ f₁.PkgName = f₂.PkgName ∧
      (∀ k, mapGet f₁.Types k = mapGet f₂.Types k) ∧
      f₁.Imports.Perm f₂.Imports ∧
      tmplComments x f₁ = tmplComments x f₂ ∧ tmplPackage f₁ = tmplPackage f₂ ∧
      tmplTypes x f₁ = tmplTypes x f₂ ∧
      f₁.emittedImports = f₂.emittedImports ∧
      (f₁.Imports = f₂.Imports → f₁.Render x = f₂.Render x) := by
  have hpan₁ := NewGoFile_calls_panics pkgPath calls₁
  have hpan₂ := NewGoFile_calls_panics pkgPath calls₂
  refine ⟨?_, ⟨hpan₁, hpan₂⟩, ?_⟩
  · have h₁ := NewGoFile_ok_iff pkgPath (calls₁.map OptionCall.option)
    have h₂ := NewGoFile_ok_iff pkgPath (calls₂.map OptionCall.option)
    simp only [hpan₁, hpan₂, and_true] at h₁ h₂
    have halloc : (newFile pkgPath).Types ≠ none := by simp [newFile]
    rw [h₁, h₂, afterCalls_some_iff _ _ halloc, afterCalls_some_iff _ _ halloc,
      (hperm.flatMap_right OptionCall.defines).nodup_iff]
    simp only [(hperm.flatMap_right OptionCall.defines).mem_iff]
  · intro f₁ f₂ h₁ h₂
    have hp := NewGoFile_ok_ne_empty _ _ _ h₁
    rw [NewGoFile_eq_ok_iff _ _ _ hp] at h₁ h₂
    obtain ⟨hp₁, hw₁, hi₁, ht₁⟩ := afterCalls_state calls₁ _ f₁ h₁
    obtain ⟨hp₂, hw₂, hi₂, ht₂⟩ := afterCalls_state calls₂ _ f₂ h₂
    have hwrap : f₁.commentLineWrap = f₂.commentLineWrap :=
      afterCalls_field_perm (fun g => g.commentLineWrap)
        OptionCall.setsLineWrap
        (fun c g => (OptionCall.keeps c g).2.2.1) calls₁ calls₂ _ f₁ f₂ hperm h₁ h₂
        (fun a ha b hb v w hv hw => agree_CommentLineWrap a b (hagree a ha b hb) v w hv hw)
    have hpre : f₁.Preamble = f₂.Preamble :=
      afterCalls_field_perm (fun g => g.Preamble)
        OptionCall.setsPreamble
        (fun c g => (OptionCall.keeps c g).2.2.2.1) calls₁ calls₂ _ f₁ f₂ hperm h₁ h₂
        (fun a ha b hb v w hv hw => agree_PreambleComment a b (hagree a ha b hb) v w hv hw)
    have hcom : f₁.PkgComment = f₂.PkgComment :=
      afterCalls_field_perm (fun g => g.PkgComment)
        OptionCall.setsPkgComment
        (fun c g => (OptionCall.keeps c g).2.2.2.2.1) calls₁ calls₂ _ f₁ f₂ hperm h₁ h₂
        (fun a ha b hb v w hv hw => agree_PkgComment a b (hagree a ha b hb) v w hv hw)
    have hname : f₁.PkgName = f₂.PkgName :=
      afterCalls_field_perm (fun g => g.PkgName)
        OptionCall.setsPkgName
        (fun c g => (OptionCall.keeps c g).2.2.2.2.2) calls₁ calls₂ _ f₁ f₂ hperm h₁ h₂
        (fun a ha b hb v w hv hw => agree_PkgName a b (hagree a ha b hb) v w hv hw)
    have hext : ∀ k, mapGet f₁.Types k = mapGet f₂.Types k := by
      intro k
      apply Option.ext
      intro v
      rw [Option.mem_def, Option.mem_def, ht₁, ht₂]
      simp only [hperm.mem_iff]
    have himp : f₁.Imports.Perm f₂.Imports := by
      rw [hi₁, hi₂]
      exact (hperm.flatMap_right _).append_left _
    have hwr : f₁.wrapper = f₂.wrapper := hw₁.trans hw₂.symm
    have hrange := rangeTypes_congr _ _ hext
    have ht : tmplType x f₁ = tmplType x f₂ := by
      funext t
      simp [tmplType, wrapComment, hwr, hwrap]
    have hc : tmplComments x f₁ = tmplComments x f₂ := by
      simp [tmplComments, wrapComment, hwr, hwrap, hpre, hcom]
    have hpk : tmplPackage f₁ = tmplPackage f₂ := by simp [tmplPackage, hname]
    have hty : tmplTypes x f₁ = tmplTypes x f₂ := by simp only [tmplTypes, hrange, ht]
    refine ⟨hp₁.trans hp₂.symm, hwr, hwrap, hpre, hcom, hname, hext, himp, hc, hpk, hty,
      sortImports_eq_of_mem _ _ (fun p => himp.mem_iff), fun heq => ?_⟩
    simp [GoFile.Render, execTemplate, hc, hpk, hty, tmplImports, heq]

/-- C15 on `DefineType` of `A` from `time.Time`, `DefineType` of `B` from
`GoFileTest` and `PkgName("foo")`, with the first two calls in the two orders:
both lists succeed, with the package name `foo` and import lists that are
permutations of one another. -/
theorem NewGoFile_permutation_witness :
    callsAB.Perm callsBA ∧
    NewGoFile "pkg" (callsAB.map OptionCall.option) = returned fileAB none ∧
    NewGoFile "pkg" (callsBA.map OptionCall.option) = returned fileBA none ∧
    fileAB.PkgName = "foo" ∧
    fileAB.Imports = ["time", "github.com/AdamSLevy/reflect2go"] ∧
    fileBA.Imports = ["github.com/AdamSLevy/reflect2go", "time"] ∧
    fileAB.Imports.Perm fileBA.Imports ∧
    tmplTypes plainCollaborators fileAB = tmplTypes plainCollaborators fileBA :=
  ⟨List.Perm.swap _ _ _, by decide, by decide, by decide, by decide, by decide,
    ((NewGoFile_permutation plainCollaborators "pkg" callsAB callsBA (List.Perm.swap _ _ _)
      (by
        intro a ha b hb
        simp only [callsAB, List.mem_cons, List.mem_singleton, List.not_mem_nil,
          or_false] at ha hb
        rcases ha with rfl | rfl | rfl <;> rcases hb with rfl | rfl | rfl <;>
          simp [OptionCall.agree])).2.2 fileAB fileBA
      (by decide) (by decide)).2.2.2.2.2.2.2.1,
    ((NewGoFile_permutation plainCollaborators "pkg" callsAB callsBA (List.Perm.swap _ _ _)
      (by
        intro a ha b hb
        simp only [callsAB, List.mem_cons, List.mem_singleton, List.not_mem_nil,
          or_false] at ha hb
        rcases ha with rfl | rfl | rfl <;> rcases hb with rfl | rfl | rfl <;>
          simp [OptionCall.agree])).2.2 fileAB fileBA
      (by decide) (by decide)).2.2.2.2.2.2.2.2.2.2.1⟩

/-- C15 as the specification words it fails: `PkgName("a")` and `PkgName("b")`
in the two orders both succeed, and give the package `b` and the package `a`;
and `DefineType` of `A` from `time.Time` and of `B` from `GoFileTest` in the
two orders give the import lists `time`, `github.com/AdamSLevy/reflect2go` and
`github.com/AdamSLevy/reflect2go`, `time`. -/
theorem NewGoFile_permutation_counterexample :
    [PkgName "a", PkgName "b"].Perm [PkgName "b", PkgName "a"] ∧
    NewGoFile "pkg" [PkgName "a", PkgName "b"] =
      returned { newFile "pkg" with PkgName := "b" } none ∧
    NewGoFile "pkg" [PkgName "b", PkgName "a"] =
      returned { newFile "pkg" with PkgName := "a" } none ∧
    (NewGoFile "pkg" [PkgName "a", PkgName "b"]).1 ≠
      (NewGoFile "pkg" [PkgName "b", PkgName "a"]).1 ∧
    (NewGoFile "pkg" [PkgName "a", PkgName "b"]).1.Render plainCollaborators =
      .ok "\npackage b\n" ∧
    (NewGoFile "pkg" [PkgName "b", PkgName "a"]).1.Render plainCollaborators =
      .ok "\npackage a\n" ∧
    [DefineType "A" timeTime [], DefineType "B" goFileTest []].Perm
      [DefineType "B" goFileTest [], DefineType "A" timeTime []] ∧
    NewGoFile "pkg" [DefineType "A" timeTime [], DefineType "B" goFileTest []] =
      returned
        (NewGoFile "pkg" [DefineType "A" timeTime [], DefineType "B" goFileTest []]).1
        none ∧
    NewGoFile "pkg" [DefineType "B" goFileTest [], DefineType "A" timeTime []] =
      returned
        (NewGoFile "pkg" [DefineType "B" goFileTest [], DefineType "A" timeTime []]).1
        none ∧
    (NewGoFile "pkg" [DefineType "A" timeTime [], DefineType "B" goFileTest []]).1.Imports =
      ["time", "github.com/AdamSLevy/reflect2go"] ∧
    (NewGoFile "pkg" [DefineType "B" goFileTest [], DefineType "A" timeTime []]).1.Imports =
      ["github.com/AdamSLevy/reflect2go", "time"] :=
  ⟨List.Perm.swap _ _ _, by decide, by decide, by decide, rfl, rfl, List.Perm.swap _ _ _,
    by decide, by decide, by decide, by decide⟩

end Reflect2go
